import Mathlib

/-!
# refranero-scraper: a shallow embedding of `main.go`

Go strings are modelled as lists of Unicode code points (`Str`), i.e. the
program is modelled on well-formed UTF-8 text.  The functions of the Go
standard library (`strings`, `unicode`) and of `goquery` that `main.go`
calls are modelled next to the code that uses them; the functions of
`main.go` itself keep their names.
-/

namespace Refranero

/-- A Go `string`, as the sequence of its code points. -/
abbrev Str := List Char

/-! ## Constants of `main.go` -/

/-- The constant `letters`. -/
def letters : Str := "ABCDEFGHIJLMNOPQRSTUVYZ".toList

/-- The constant `baseURL`. -/
def baseURL : Str := "http://cvc.cervantes.es/lengua/refranero".toList

/-- The constant `alphaPageURL`. -/
def alphaPageURL : Str :=
  "http://cvc.cervantes.es/lengua/refranero/listado.aspx?letra=".toList

/-- The constant `networkConns`. -/
def networkConns : Nat := 10

/-- The constant `sectionUsage`. -/
def sectionUsage : Str := "Marcador de uso:".toList

/-- The constant `sectionIdiom`. -/
def sectionIdiom : Str := "Enunciado:".toList

/-- The constant `sectionDefinition`. -/
def sectionDefinition : Str := "Significado:".toList

/-- The constant `usageComment`. -/
def usageComment : Str := "Comentario al marcador de uso".toList

/-- The constant `missingMarker`. -/
def missingMarker : Str := []

/-! ## The Go standard library functions used by `main.go` -/

/-- Go `unicode.IsSpace`: the Latin-1 cases, then the `White_Space` table. -/
def isSpace (c : Char) : Bool :=
  let n := c.toNat
  (9 ≤ n && n ≤ 13) || n == 32 || n == 133 || n == 160 || n == 5760 ||
  (8192 ≤ n && n ≤ 8202) || n == 8232 || n == 8233 || n == 8239 ||
  n == 8287 || n == 12288

/-- Go `strings.TrimSpace`: all leading and trailing white space removed. -/
def TrimSpace (s : Str) : Str :=
  ((s.dropWhile isSpace).reverse.dropWhile isSpace).reverse

/-- Go `strings.HasPrefix`. -/
def HasPrefix (s pre : Str) : Bool := pre.isPrefixOf s

/-- Go `strings.TrimPrefix`: `s` without the leading `pre`, or `s` itself. -/
def TrimPrefix (s pre : Str) : Str :=
  if HasPrefix s pre then s.drop pre.length else s

/-- Go `strings.Index`: the position of the first occurrence of `sub` in
`s`; Go's `-1` is `none`. -/
def Index : Str → Str → Option Nat
  | [], sub => if sub.isPrefixOf [] then some 0 else none
  | c :: s, sub =>
    if sub.isPrefixOf (c :: s) then some 0 else (Index s sub).map (· + 1)

/-- The loop of Go `strings.Count` for a non-empty `sub`: repeatedly find
the next occurrence and continue after it.  `fuel` bounds the iterations. -/
def countLoop (sub : Str) : Nat → Str → Nat
  | 0, _ => 0
  | fuel + 1, s =>
    match Index s sub with
    | none => 0
    | some i => 1 + countLoop sub fuel (s.drop (i + sub.length))

/-- Go `strings.Count`: the number of non-overlapping occurrences of `sub`
(`len(s) + 1` for the empty `sub`). -/
def Count (s sub : Str) : Nat :=
  if sub = [] then s.length + 1 else countLoop sub s.length s

/-- The loop of Go `strings.genSplit` (with `sepSave = 0`) that fills the
result: at most `n` cuts at the successive occurrences of `sep`, then the
rest. -/
def splitLoop (sep : Str) : Nat → Str → List Str
  | 0, s => [s]
  | n + 1, s =>
    match Index s sep with
    | none => [s]
    | some m => s.take m :: splitLoop sep n (s.drop (m + sep.length))

/-- Go `strings.Split(s, sep)`, i.e. `genSplit(s, sep, 0, -1)`: for the
empty separator the string is exploded into its code points, otherwise
`n = Count(s, sep) + 1` pieces (capped at `len(s) + 1`) are cut.  The cap
never applies for a non-empty separator, whether the length is counted in
bytes as in Go or in code points as here. -/
def Split (s sep : Str) : List Str :=
  if sep = [] then s.map (fun c => [c])
  else splitLoop sep (min (Count s sep + 1) (s.length + 1) - 1) s

/-- The replacement loop of Go `strings.Replace` for a non-empty `old`:
`n` times, copy up to the next occurrence, write `new`, skip `old`; then
copy the rest. -/
def replaceLoop (old new : Str) : Nat → Str → Str
  | 0, s => s
  | n + 1, s =>
    match Index s old with
    | none => s
    | some j => s.take j ++ new ++ replaceLoop old new n (s.drop (j + old.length))

/-- Go `strings.Replace(s, old, new, n)` for a non-empty `old` (the only
use in `main.go` has `old = "\n"`); `n < 0` means no limit. -/
def Replace (s old new : Str) (n : Int) : Str :=
  if old = new ∨ n = 0 then s
  else
    let m := Count s old
    if m = 0 then s
    else replaceLoop old new (if n < 0 ∨ (m : Int) < n then m else n.toNat) s

/-- Go `fmt.Sprintf("%s/%s", a, b)`. -/
def sprintfSlash (a b : Str) : Str := a ++ "/".toList ++ b

/-- Go `fmt.Sprintf("%s%c", a, c)`. -/
def sprintfChar (a : Str) (c : Char) : Str := a ++ [c]

/-- Go `bufio.MaxScanTokenSize`, the size at which the buffer of a
`bufio.Scanner` made by `NewScanner` stops growing. -/
def maxScanTokenSize : Nat := 64 * 1024

/-- The length in bytes of a string, as Go's `len`. -/
def byteLen (s : Str) : Nat := (s.map Char.utf8Size).sum

/-- The `dropCR` of Go `bufio.ScanLines`: one trailing carriage return is
removed. -/
def dropCR (data : Str) : Str :=
  if data.getLast? = some '\r' then data.dropLast else data

/-- One call of `scanner.Scan()` followed by `scanner.Text()` on the unread
input, for a `bufio.Scanner` with the default buffer and the default split
function `ScanLines`: the next line without its end-of-line marker and the
input left after it.  The result is `none` when `Scan` returns false: at
the end of the input, and also, with the error `ErrTooLong`, when the next
line does not fit into the buffer with its newline, that is when it has
`maxScanTokenSize` bytes or more. -/
def scanLine (input : Str) : Option (Str × Str) :=
  if input = [] then none
  else
    let line := input.takeWhile (fun c => c != '\n')
    if maxScanTokenSize ≤ byteLen line then none
    else some (dropCR line, (input.dropWhile (fun c => c != '\n')).drop 1)

/-- The lines that successive calls of `scanner.Scan()` deliver; `fuel`
bounds the number of calls. -/
def scanLoop : Nat → Str → List Str
  | 0, _ => []
  | fuel + 1, input =>
    match scanLine input with
    | none => []
    | some (line, rest) => line :: scanLoop fuel rest

/-- All the lines the loop `for scanner.Scan()` of `inSlugs` delivers on
this input: every call consumes at least one character, so the length of
the input is fuel enough. -/
def scanTokens (input : Str) : List Str := scanLoop input.length input

/-- The text on standard input that holds these lines, each ended by a
newline. -/
def stdinOf (lines : List Str) : Str := lines.flatMap (fun l => l ++ "\n".toList)

/-! ## The `goquery` documents, as far as `main.go` queries them -/

/-- One element of the selection `Find("p > strong")`: its own `Text()` and
the `Text()` of its `Parent()`. -/
structure Header where
  text : Str
  parentText : Str
deriving DecidableEq, Repr

/-- One element of the selection `Find("ol#lista_az > li > a")`:
`Attr("href")`, with `none` when the attribute is missing. -/
structure Anchor where
  href : Option Str
deriving DecidableEq, Repr

/-- A parsed document: what the two queries of `main.go` select in it, in
document order.  `tabbertab` is `Find("div.tabbertab")`, each panel given
by its `Find("p > strong")` elements; `listaAz` is
`Find("ol#lista_az > li > a")`. -/
structure Document where
  tabbertab : List (List Header)
  listaAz : List Anchor
deriving DecidableEq, Repr

/-- The `First()` of `Find("div.tabbertab")`, seen through
`Find("p > strong")`: the empty selection when there is no panel. -/
def Document.firstTabbertab (doc : Document) : List Header :=
  match doc.tabbertab with
  | [] => []
  | sel :: _ => sel

/-- The document fetcher `goquery.NewDocument`: for a URL, a document or
the message of an error. -/
abbrev Fetcher := Str → Except Str Document

/-! ## `main.go` -/

/-- The type `refran`; `err` holds the message of the Go `error`, `none`
for `nil`. -/
structure refran where
  idiom : Str := []
  usage : Str := []
  definition : Str := []
  err : Option Str := none
deriving DecidableEq, Repr

/-- The method `refran.isEmpty`. -/
def refran.isEmpty (r : refran) : Bool :=
  r.idiom == missingMarker && r.definition == missingMarker && r.usage == missingMarker

/-- The `Each` callback of `getSectionText`, run over the selection from
index `i` on: `foundIdx` is overwritten at every element whose trimmed
text is the section label. -/
def eachHeader (sectionName : Str) : List Header → Nat → Int → Int
  | [], _, foundIdx => foundIdx
  | s :: rest, i, foundIdx =>
    eachHeader sectionName rest (i + 1)
      (if TrimSpace s.text = sectionName then (i : Int) else foundIdx)

/-- The text of `headers.Eq(idx).Parent()`: empty for an empty selection. -/
def parentTextAt (headers : List Header) (idx : Int) : Str :=
  match headers.get? idx.toNat with
  | some h => h.parentText
  | none => []

/-- The function `getSectionText`; `sel` is the selection
`sel.Find("p > strong")`. -/
def getSectionText (sel : List Header) (sectionName : Str) : Str :=
  let foundIdx := eachHeader sectionName sel 0 (-1)
  if foundIdx = -1 then missingMarker
  else
    let text := TrimPrefix (parentTextAt sel foundIdx) sectionName
    let text := Replace text "\n".toList " ".toList (-1)
    TrimSpace text

/-- The body of the worker loop of `inSlugs` for the job `j`: the record
sent on `output`.  `none` stands for the run-time panic of an index out of
range at `usageParts[0]`. -/
def workerBody (NewDocument : Fetcher) (j : Str) : Option refran :=
  match NewDocument (sprintfSlash baseURL j) with
  | .error e => some { err := some e }
  | .ok doc =>
    let sel := doc.firstTabbertab
    let idiom := getSectionText sel sectionIdiom
    let usage := getSectionText sel sectionUsage
    let usageParts := Split usage usageComment
    match usageParts[0]? with
    | none => none
    | some usage =>
      let definition := getSectionText sel sectionDefinition
      some { idiom := idiom, usage := usage, definition := definition }

/-- The header line printed by `inSlugs`. -/
def headerLine : Str := "Refran\tSignificado\tUso\n".toList

/-- Go `fmt.Printf("ERROR: %s\n", err)`. -/
def errorLine (msg : Str) : Str := "ERROR: ".toList ++ msg ++ "\n".toList

/-- Go `fmt.Printf("%s\t%s\t%s\n", a, b, c)`. -/
def rowLine (a b c : Str) : Str :=
  a ++ "\t".toList ++ b ++ "\t".toList ++ c ++ "\n".toList

/-- The body of the writer loop of `inSlugs` for the record `r`; `stdout`
is the sequence of writes made so far, one per `Printf` call. -/
def writeRecord (stdout : List Str) (r : refran) : List Str :=
  match r.err with
  | some e => stdout ++ [errorLine e]
  | none =>
    if r.isEmpty then stdout
    else stdout ++ [rowLine r.idiom r.definition r.usage]

/-- The writer of `inSlugs` on the records received from `output`: the
header, then the loop over the records in arrival order. -/
def inSlugsWriter (rs : List refran) : List Str :=
  rs.foldl writeRecord [headerLine]

/-- The text on standard output: the writes one after the other. -/
def outputText (writes : List Str) : Str := writes.flatten

/-- The `Each` callback of `outSlugs` over the anchors of a listing page:
the links it sends on `slugs`, in order. -/
def eachAnchor : List Anchor → List Str
  | [] => []
  | s :: rest =>
    match s.href with
    | none => eachAnchor rest
    | some link => link :: eachAnchor rest

/-- The URLs of the listing pages, one per goroutine started by the loop
`for _, letter := range letters` of `outSlugs`. -/
def listingURLs : List Str := letters.map (sprintfChar alphaPageURL)

/-- The three string steps of `getSectionText` on the text of the parent. -/
def cleanParentText (parentText label : Str) : Str :=
  TrimSpace (Replace (TrimPrefix parentText label) "\n".toList " ".toList (-1))

/-- What `usageParts[0]` is: the text cut at the first occurrence of
`usageComment`, or the whole text when the marker does not occur. -/
def usagePrefix (u : Str) : Str :=
  match Index u usageComment with
  | none => u
  | some m => u.take m

/-- The line of the fetch-mode output that the specification gives for a
record: an `ERROR:` line for a failed record, nothing for an empty one, a
tab-separated row in the order idiom, definition, usage otherwise. -/
def specLine (r : refran) : Option Str :=
  match r.err with
  | some msg => some ("ERROR: ".toList ++ msg ++ "\n".toList)
  | none =>
    if r.idiom = [] ∧ r.usage = [] ∧ r.definition = [] then none
    else some (r.idiom ++ "\t".toList ++ r.definition ++ "\t".toList ++ r.usage ++ "\n".toList)

/-- A record that the specification calls failed or non-empty. -/
def refran.reported (r : refran) : Bool :=
  decide (r.err ≠ none ∨ r.idiom ≠ [] ∨ r.usage ≠ [] ∨ r.definition ≠ [])

/-- No text of the record and no error message holds a newline. -/
def refran.newlineFree (r : refran) : Prop :=
  '\n' ∉ r.idiom ∧ '\n' ∉ r.usage ∧ '\n' ∉ r.definition ∧ ∀ e, r.err = some e → '\n' ∉ e

instance refran.decidableNewlineFree (r : refran) : Decidable r.newlineFree := by
  unfold refran.newlineFree
  cases r with
  | mk idiom usage definition err =>
    cases err with
    | none =>
      exact decidable_of_iff ('\n' ∉ idiom ∧ '\n' ∉ usage ∧ '\n' ∉ definition)
        (by simp)
    | some e =>
      exact decidable_of_iff ('\n' ∉ idiom ∧ '\n' ∉ usage ∧ '\n' ∉ definition ∧ '\n' ∉ e)
        (by simp)

/-! ## The goroutines of `inSlugs` as a transition system

The channels `jobs` and `output` are unbuffered, so a send and its receive
are one step.  What a worker does between receiving a job and sending the
record touches no shared state and is one step too.  A schedule is a list
of actions; `Pipeline.run` follows it and is undefined as soon as an action
is not enabled.

Standard input is the text that can be read from it: a read error ends the
text like the end of the file does, since the scanner delivers what was
read before the error and `inSlugs` never looks at `scanner.Err()`. -/

/-- Where one of the `networkConns` worker goroutines stands. -/
inductive Worker where
  /-- Blocked at `for j := range jobs`. -/
  | waiting
  /-- Holding the job `j`, about to run the loop body. -/
  | fetching (j : Str)
  /-- Blocked at `output <- r`. -/
  | sending (r : refran)
  /-- Left the loop and called `done.Done()`. -/
  | exited
deriving DecidableEq, Repr

/-- The state of `inSlugs`: the text of standard input not yet scanned, the
channel flags, the workers, and what the main goroutine has received from
`output` and written so far. -/
structure Pipeline where
  stdin : Str
  jobsClosed : Bool
  workers : List Worker
  headerPrinted : Bool
  received : List refran
  stdout : List Str
  outputClosed : Bool
deriving DecidableEq, Repr

/-- The steps of `inSlugs`. -/
inductive PipeAction where
  /-- The main goroutine prints the header. -/
  | header
  /-- `scanner.Scan()` returns true and the scanner goroutine hands the
  line to worker `i`. -/
  | feed (i : Nat)
  /-- Worker `i` runs the loop body on its job. -/
  | work (i : Nat)
  /-- Worker `i` hands its record to the writer loop, which prints it. -/
  | emit (i : Nat)
  /-- `scanner.Scan()` returns false and the scanner goroutine closes
  `jobs`. -/
  | closeJobs
  /-- Worker `i` finds `jobs` closed and leaves its loop. -/
  | exit (i : Nat)
  /-- `done.Wait()` returns and `output` is closed. -/
  | closeOutput
deriving DecidableEq, Repr

/-- The state in which `inSlugs` starts on the standard input `input`. -/
def Pipeline.init (input : Str) : Pipeline :=
  { stdin := input, jobsClosed := false,
    workers := List.replicate networkConns Worker.waiting,
    headerPrinted := false, received := [], stdout := [], outputClosed := false }

/-- One step of `inSlugs`; `none` when the action is not enabled (or the
loop body panics). -/
def Pipeline.step (NewDocument : Fetcher) (s : Pipeline) : PipeAction → Option Pipeline
  | .header =>
    if s.headerPrinted then none
    else some { s with headerPrinted := true, stdout := s.stdout ++ [headerLine] }
  | .feed i =>
    if s.jobsClosed then none
    else
      match scanLine s.stdin, s.workers[i]? with
      | some (j, rest), some Worker.waiting =>
        some { s with stdin := rest, workers := s.workers.set i (Worker.fetching j) }
      | _, _ => none
  | .work i =>
    match s.workers[i]? with
    | some (Worker.fetching j) =>
      match workerBody NewDocument j with
      | some r => some { s with workers := s.workers.set i (Worker.sending r) }
      | none => none
    | _ => none
  | .emit i =>
    match s.workers[i]? with
    | some (Worker.sending r) =>
      if s.headerPrinted then
        some { s with workers := s.workers.set i Worker.waiting,
                      received := s.received ++ [r],
                      stdout := writeRecord s.stdout r }
      else none
    | _ => none
  | .closeJobs =>
    if scanLine s.stdin = none ∧ s.jobsClosed = false then
      some { s with jobsClosed := true }
    else none
  | .exit i =>
    match s.workers[i]? with
    | some Worker.waiting =>
      if s.jobsClosed then some { s with workers := s.workers.set i Worker.exited }
      else none
    | _ => none
  | .closeOutput =>
    if (∀ w ∈ s.workers, w = Worker.exited) ∧ s.outputClosed = false then
      some { s with outputClosed := true }
    else none

/-- Follow a schedule. -/
def Pipeline.run (NewDocument : Fetcher) : List PipeAction → Pipeline → Option Pipeline
  | [], s => some s
  | a :: rest, s =>
    match Pipeline.step NewDocument s a with
    | some t => Pipeline.run NewDocument rest t
    | none => none

/-- The main goroutine has printed the header and found `output` closed:
`inSlugs` returns. -/
def Pipeline.returned (s : Pipeline) : Bool := s.headerPrinted && s.outputClosed

/-- The record a worker in this state still owes to `output`. -/
def Worker.owed (NewDocument : Fetcher) : Worker → List (Option refran)
  | .waiting => []
  | .fetching j => [workerBody NewDocument j]
  | .sending r => [some r]
  | .exited => []

/-- The number of steps a worker in this state still takes, the jobs it
may yet be handed not counted. -/
def Worker.weight : Worker → Nat
  | .waiting => 1
  | .fetching _ => 3
  | .sending _ => 2
  | .exited => 0

/-- The number of steps `inSlugs` still takes from this state. -/
def Pipeline.measure (s : Pipeline) : Nat :=
  3 * (scanTokens s.stdin).length + (if s.jobsClosed then 0 else 1)
    + (if s.headerPrinted then 0 else 1)
    + (if s.outputClosed then 0 else 1) + (s.workers.map Worker.weight).sum

/-- What holds in every state `inSlugs` reaches on the input `input`. -/
structure Pipeline.Inv (NewDocument : Fetcher) (input : Str) (s : Pipeline) : Prop where
  workers_length : s.workers.length = networkConns
  closed_stdin : s.jobsClosed = true → scanLine s.stdin = none
  exited_closed : Worker.exited ∈ s.workers → s.jobsClosed = true
  output_closed : s.outputClosed = true → ∀ w ∈ s.workers, w = Worker.exited
  records : (s.received.map some ++ s.workers.flatMap (Worker.owed NewDocument)
      ++ (scanTokens s.stdin).map (workerBody NewDocument)).Perm
    ((scanTokens input).map (workerBody NewDocument))
  written : s.stdout = if s.headerPrinted then inSlugsWriter s.received else []
  unwritten : s.headerPrinted = false → s.received = []

/-! ## The goroutines of `outSlugs` as a transition system

The channel `slugs` is unbuffered, so a send and the `Println` of the main
goroutine that receives it are one step. -/

/-- Go `fmt.Println(slug)`. -/
def println (slug : Str) : Str := slug ++ "\n".toList

/-- Where the goroutine started for one letter stands. -/
inductive Crawler where
  /-- Started, `NewDocument` not yet called. -/
  | launched (letter : Char)
  /-- Inside `Each`, with these anchors still to visit. -/
  | visiting (letter : Char) (rest : List Anchor)
  /-- Returned; the deferred `wg.Done()` has run. -/
  | finished (letter : Char)
  /-- Called `log.Fatal`. -/
  | failed (letter : Char)
deriving DecidableEq, Repr

/-- The letter a goroutine was started for. -/
def Crawler.letter : Crawler → Char
  | .launched l => l
  | .visiting l _ => l
  | .finished l => l
  | .failed l => l

/-- The state of `outSlugs`: the goroutines, the URLs requested so far,
the message of `log.Fatal` once the process has exited through it, the
channel flag, and what has been printed. -/
structure Enumeration where
  crawlers : List Crawler
  requested : List Str
  fatal : Option Str
  slugsClosed : Bool
  stdout : List Str
deriving DecidableEq, Repr

/-- The steps of `outSlugs`. -/
inductive EnumAction where
  /-- Goroutine `i` calls `NewDocument`, and `log.Fatal` on an error. -/
  | fetch (i : Nat)
  /-- The callback of goroutine `i` runs on the next anchor: it returns
  when there is no `href`, and otherwise sends the link, which the main
  goroutine prints. -/
  | visit (i : Nat)
  /-- `Each` is over for goroutine `i`, which returns. -/
  | finish (i : Nat)
  /-- `wg.Wait()` returns and `slugs` is closed. -/
  | close
deriving DecidableEq, Repr

/-- The state in which `outSlugs` has started its goroutines. -/
def Enumeration.init : Enumeration :=
  { crawlers := letters.map Crawler.launched, requested := [], fatal := none,
    slugsClosed := false, stdout := [] }

/-- One step of `outSlugs`; `none` when the action is not enabled, and
after `log.Fatal` has ended the process. -/
def Enumeration.step (NewDocument : Fetcher) (s : Enumeration) (a : EnumAction) :
    Option Enumeration :=
  if s.fatal.isSome then none
  else
    match a with
    | .fetch i =>
      match s.crawlers[i]? with
      | some (Crawler.launched letter) =>
        match NewDocument (sprintfChar alphaPageURL letter) with
        | .error e =>
          some { s with crawlers := s.crawlers.set i (Crawler.failed letter),
                        requested := s.requested ++ [sprintfChar alphaPageURL letter],
                        fatal := some e }
        | .ok doc =>
          some { s with crawlers := s.crawlers.set i (Crawler.visiting letter doc.listaAz),
                        requested := s.requested ++ [sprintfChar alphaPageURL letter] }
      | _ => none
    | .visit i =>
      match s.crawlers[i]? with
      | some (Crawler.visiting letter (anchor :: rest)) =>
        match anchor.href with
        | none => some { s with crawlers := s.crawlers.set i (Crawler.visiting letter rest) }
        | some link =>
          some { s with crawlers := s.crawlers.set i (Crawler.visiting letter rest),
                        stdout := s.stdout ++ [println link] }
      | _ => none
    | .finish i =>
      match s.crawlers[i]? with
      | some (Crawler.visiting letter []) =>
        some { s with crawlers := s.crawlers.set i (Crawler.finished letter) }
      | _ => none
    | .close =>
      if (∀ c ∈ s.crawlers, c = Crawler.finished c.letter) ∧ s.slugsClosed = false then
        some { s with slugsClosed := true }
      else none

/-- Follow a schedule. -/
def Enumeration.run (NewDocument : Fetcher) : List EnumAction → Enumeration → Option Enumeration
  | [], s => some s
  | a :: rest, s =>
    match Enumeration.step NewDocument s a with
    | some t => Enumeration.run NewDocument rest t
    | none => none

/-- The anchors of the listing page of a letter; none when its fetch fails. -/
def listingAnchors (NewDocument : Fetcher) (letter : Char) : List Anchor :=
  match NewDocument (sprintfChar alphaPageURL letter) with
  | .ok doc => doc.listaAz
  | .error _ => []

/-- The lines a run of `Each` over these anchors prints. -/
def anchorLines (anchors : List Anchor) : List Str := (eachAnchor anchors).map println

/-- The lines a goroutine in this state will still have printed. -/
def Crawler.pendingLines (NewDocument : Fetcher) : Crawler → List Str
  | .launched l => anchorLines (listingAnchors NewDocument l)
  | .visiting _ rest => anchorLines rest
  | .finished _ => []
  | .failed _ => []

/-- The URL a goroutine in this state will still request. -/
def Crawler.pendingURL : Crawler → List Str
  | .launched l => [sprintfChar alphaPageURL l]
  | _ => []

/-- The number of steps a goroutine in this state still takes. -/
def Crawler.weight (NewDocument : Fetcher) : Crawler → Nat
  | .launched l =>
    match NewDocument (sprintfChar alphaPageURL l) with
    | .ok doc => doc.listaAz.length + 2
    | .error _ => 1
  | .visiting _ rest => rest.length + 1
  | .finished _ => 0
  | .failed _ => 0

/-- The number of steps `outSlugs` takes at most from this state. -/
def Enumeration.measure (NewDocument : Fetcher) (s : Enumeration) : Nat :=
  if s.fatal.isSome then 0
  else 1 + (if s.slugsClosed then 0 else 1) + (s.crawlers.map (Crawler.weight NewDocument)).sum

/-- The main goroutine has found `slugs` closed: `outSlugs` returns. -/
def Enumeration.returned (s : Enumeration) : Bool := s.slugsClosed

/-- What holds in every state `outSlugs` reaches. -/
structure Enumeration.Inv (NewDocument : Fetcher) (s : Enumeration) : Prop where
  letters_kept : s.crawlers.map Crawler.letter = letters
  failed_fatal : ∀ c ∈ s.crawlers, c = Crawler.failed c.letter → s.fatal.isSome = true
  fatal_failed : s.fatal.isSome = true → ∃ c ∈ s.crawlers, c = Crawler.failed c.letter
  closed_finished : s.slugsClosed = true → ∀ c ∈ s.crawlers, c = Crawler.finished c.letter
  urls : (s.requested ++ s.crawlers.flatMap Crawler.pendingURL).Perm listingURLs
  lines : (s.stdout ++ s.crawlers.flatMap (Crawler.pendingLines NewDocument)).Perm
    (letters.flatMap (fun l => anchorLines (listingAnchors NewDocument l)))
  ordered : ∀ c ∈ s.crawlers, ∃ sent : List Str, sent.Sublist s.stdout ∧
    (s.fatal = none →
      sent ++ Crawler.pendingLines NewDocument c
        = anchorLines (listingAnchors NewDocument c.letter))

/-! ## Example inputs -/

/-- A usage text with editorial commentary after the marker. -/
def usageExample : Str :=
  "en frases afirmativas Comentario al marcador de uso: añade énfasis".toList

/-- A region in which elements 0 and 2 both carry the idiom label: the
paragraph `<p><strong>Enunciado:</strong> A quien madruga</p>` and, two
paragraphs further, `<p><strong>Enunciado: </strong>`, a line break and
`Dios le ayuda </p>`. -/
def tieBreakRegion : List Header :=
  [ { text := "Enunciado:".toList, parentText := "Enunciado: A quien madruga".toList },
    { text := "Ideas clave:".toList, parentText := "Ideas clave: Diligencia".toList },
    { text := "Enunciado: ".toList, parentText := "Enunciado: \nDios le ayuda ".toList } ]

/-- A region whose idiom paragraph repeats the label after the `strong`
element, as in `<p><strong>Enunciado:</strong> Enunciado: Al pan, pan</p>`. -/
def labelTwiceRegion : List Header :=
  [ { text := "Enunciado:".toList, parentText := "Enunciado: Enunciado: Al pan, pan".toList } ]

/-- A detail page with the three labelled sections. -/
def fichaDocument : Document :=
  { tabbertab :=
      [ [ { text := "Enunciado:".toList,
            parentText := "Enunciado: A buen hambre no hay pan duro".toList },
          { text := "Ideas clave:".toList,
            parentText := "Ideas clave: Hambre".toList },
          { text := "Significado: ".toList,
            parentText := "Significado: Cuando se tiene necesidad,\nno se repara en delicadezas. ".toList },
          { text := "Marcador de uso:".toList,
            parentText := "Marcador de uso: De uso actual Comentario al marcador de uso: frecuente".toList } ] ],
    listaAz := [] }

/-- A page without any of the three labels. -/
def otherDocument : Document :=
  { tabbertab := [ [ { text := "Fuentes:".toList, parentText := "Fuentes: Correas".toList } ] ],
    listaAz := [] }

/-- A listing page: two anchors with a link around one without `href` and
one whose `href` is empty. -/
def listingDocument : Document :=
  { tabbertab := [],
    listaAz := [ { href := some "ficha.aspx?Par=58001".toList }, { href := none },
                 { href := some [] }, { href := some "ficha.aspx?Par=58002".toList } ] }

/-- A fetcher that knows two detail pages and loses the connection on every
other URL. -/
def exampleFetcher : Fetcher := fun url =>
  if url = sprintfSlash baseURL "ficha.aspx?Par=58001".toList then .ok fichaDocument
  else if url = sprintfSlash baseURL "ficha.aspx?Par=58002".toList then .ok otherDocument
  else .error ("Get ".toList ++ url ++ ": EOF".toList)

/-- Three records as the writer may receive them: a failed one, an empty
one and one with texts. -/
def exampleRecords : List refran :=
  [ { err := some "Get http://cvc.cervantes.es/lengua/refranero/nada: EOF".toList },
    { },
    { idiom := "Al pan, pan".toList, usage := "De uso actual".toList,
      definition := "Hablar con claridad".toList } ]

/-- Three input lines: a known page, an unknown slug, a page without
labels. -/
def exampleSlugs : List Str :=
  [ "ficha.aspx?Par=58001".toList, "nada".toList, "ficha.aspx?Par=58002".toList ]

/-- A schedule of `inSlugs` on `exampleSlugs` in which two workers overlap
and the second slug is answered before the first. -/
def exampleSchedule : List PipeAction :=
  [ .feed 0, .feed 1, .header, .work 1, .work 0, .emit 1, .feed 1, .emit 0, .work 1,
    .closeJobs, .exit 0, .emit 1, .exit 1, .exit 2, .exit 3, .exit 4, .exit 5, .exit 6,
    .exit 7, .exit 8, .exit 9, .closeOutput ]

/-- The state in which `exampleSchedule` ends. -/
def exampleFinal : Pipeline :=
  { stdin := [], jobsClosed := true,
    workers := List.replicate 10 Worker.exited,
    headerPrinted := true,
    received :=
      [ { err := some "Get http://cvc.cervantes.es/lengua/refranero/nada: EOF".toList },
        { idiom := "A buen hambre no hay pan duro".toList,
          usage := "De uso actual ".toList,
          definition := "Cuando se tiene necesidad, no se repara en delicadezas.".toList },
        { } ],
    stdout :=
      [ "Refran\tSignificado\tUso\n".toList,
        "ERROR: Get http://cvc.cervantes.es/lengua/refranero/nada: EOF\n".toList,
        "A buen hambre no hay pan duro\tCuando se tiene necesidad, no se repara en delicadezas.\tDe uso actual \n".toList ],
    outputClosed := true }

/-- Three input lines of which the second has 70000 bytes. -/
def longLineSlugs : List Str :=
  [ "ficha.aspx?Par=58001".toList, List.replicate 70000 'b', "ficha.aspx?Par=58002".toList ]

/-- The input left unread when the scanner gives up on the second line of
`longLineSlugs`. -/
def longLineRest : Str :=
  List.replicate 70000 'b' ++ '\n' :: ("ficha.aspx?Par=58002".toList ++ '\n' :: [])

/-- A schedule of `inSlugs` on `longLineSlugs` that runs until `inSlugs`
returns. -/
def longLineSchedule : List PipeAction :=
  [ .header, .feed 0, .work 0, .emit 0, .closeJobs, .exit 0, .exit 1, .exit 2, .exit 3,
    .exit 4, .exit 5, .exit 6, .exit 7, .exit 8, .exit 9, .closeOutput ]

/-- The state in which `longLineSchedule` ends. -/
def longLineFinal : Pipeline :=
  { stdin := longLineRest, jobsClosed := true,
    workers := List.replicate 10 Worker.exited,
    headerPrinted := true,
    received :=
      [ { idiom := "A buen hambre no hay pan duro".toList,
          usage := "De uso actual ".toList,
          definition := "Cuando se tiene necesidad, no se repara en delicadezas.".toList } ],
    stdout :=
      [ "Refran\tSignificado\tUso\n".toList,
        "A buen hambre no hay pan duro\tCuando se tiene necesidad, no se repara en delicadezas.\tDe uso actual \n".toList ],
    outputClosed := true }

/-- A fetcher of listing pages: four anchors under `A`, one under `B`, and
an empty list under every other letter. -/
def exampleListings : Fetcher := fun url =>
  if url = sprintfChar alphaPageURL 'A' then .ok listingDocument
  else if url = sprintfChar alphaPageURL 'B' then
    .ok { tabbertab := [], listaAz := [ { href := some "ficha.aspx?Par=58100".toList } ] }
  else .ok { tabbertab := [], listaAz := [] }

/-- A schedule of `outSlugs` with `exampleListings` in which the pages of
`B` and `A` are fetched first, in this order, and their links alternate. -/
def exampleEnumSchedule : List EnumAction :=
  [ .fetch 1, .fetch 0, .visit 0, .visit 1, .visit 0, .visit 0, .finish 1, .visit 0,
    .finish 0 ] ++
  (List.range 21).flatMap (fun k => [ EnumAction.fetch (k + 2), EnumAction.finish (k + 2) ]) ++
  [ .close ]

/-- The state in which `exampleEnumSchedule` ends. -/
def exampleEnumFinal : Enumeration :=
  { crawlers := letters.map Crawler.finished,
    requested :=
      [ sprintfChar alphaPageURL 'B', sprintfChar alphaPageURL 'A' ] ++
        (letters.drop 2).map (sprintfChar alphaPageURL),
    fatal := none,
    slugsClosed := true,
    stdout :=
      [ "ficha.aspx?Par=58001\n".toList, "ficha.aspx?Par=58100\n".toList, "\n".toList,
        "ficha.aspx?Par=58002\n".toList ] }

/-- A fetcher of listing pages that loses the connection on the page of `A`
and finds an empty list under every other letter. -/
def failingListings : Fetcher := fun url =>
  if url = sprintfChar alphaPageURL 'A' then
    .error "Get http://cvc.cervantes.es/lengua/refranero/listado.aspx?letra=A: EOF".toList
  else .ok { tabbertab := [], listaAz := [] }

/-- The state of `outSlugs` with `failingListings` after the goroutine of
`A` has called `log.Fatal`. -/
def failedEnumState : Enumeration :=
  { crawlers := Crawler.failed 'A' :: (letters.drop 1).map Crawler.launched,
    requested := [ sprintfChar alphaPageURL 'A' ],
    fatal := some "Get http://cvc.cervantes.es/lengua/refranero/listado.aspx?letra=A: EOF".toList,
    slugsClosed := false,
    stdout := [] }

/-! ## Facts about the string functions -/

theorem Index_eq_none {sub : Str} :
    ∀ {s : Str}, Index s sub = none → ∀ k, ¬ sub <+: s.drop k := by
  intro s
  induction s with
  | nil =>
    intro h k
    simp only [Index] at h
    split at h
    · cases h
    · rename_i hp
      simpa [List.isPrefixOf_iff_prefix] using hp
  | cons c s ih =>
    intro h k
    simp only [Index] at h
    split at h
    · cases h
    · rename_i hp
      cases k with
      | zero => simpa [List.isPrefixOf_iff_prefix] using hp
      | succ k =>
        have h2 : Index s sub = none := by
          cases hI : Index s sub with
          | none => rfl
          | some v => rw [hI] at h; cases h
        simpa using ih h2 k

theorem Index_eq_some {sub : Str} :
    ∀ {s : Str} {m : Nat}, Index s sub = some m →
      sub <+: s.drop m ∧ ∀ k, k < m → ¬ sub <+: s.drop k := by
  intro s
  induction s with
  | nil =>
    intro m h
    simp only [Index] at h
    split at h
    · rename_i hp
      cases h
      exact ⟨by simpa [List.isPrefixOf_iff_prefix] using hp, fun k hk => absurd hk (Nat.not_lt_zero k)⟩
    · cases h
  | cons c s ih =>
    intro m h
    simp only [Index] at h
    split at h
    · rename_i hp
      cases h
      exact ⟨by simpa [List.isPrefixOf_iff_prefix] using hp, fun k hk => absurd hk (Nat.not_lt_zero k)⟩
    · rename_i hp
      cases hI : Index s sub with
      | none => rw [hI] at h; cases h
      | some v =>
        rw [hI] at h
        simp only [Option.map_some', Option.some.injEq] at h
        subst h
        obtain ⟨h1, h2⟩ := ih hI
        refine ⟨by simpa using h1, ?_⟩
        intro k hk
        cases k with
        | zero => simpa [List.isPrefixOf_iff_prefix] using hp
        | succ k => simpa using h2 k (by omega)

/-- An occurrence of `sub` somewhere in `s` starts at some position. -/
theorem occurs_iff_at_position {sub s : Str} :
    sub <:+: s ↔ ∃ k, sub <+: s.drop k := by
  constructor
  · rintro ⟨a, b, rfl⟩
    exact ⟨a.length, by simp⟩
  · rintro ⟨k, hk⟩
    exact hk.isInfix.trans (List.drop_suffix k s).isInfix

theorem Index_eq_none_iff {s sub : Str} : Index s sub = none ↔ ¬ sub <:+: s := by
  constructor
  · intro h hin
    obtain ⟨k, hk⟩ := occurs_iff_at_position.mp hin
    exact Index_eq_none h k hk
  · intro h
    cases hI : Index s sub with
    | none => rfl
    | some m =>
      exact absurd (occurs_iff_at_position.mpr ⟨m, (Index_eq_some hI).1⟩) h

/-- At the position found by `Index`, the string is cut into what precedes
the occurrence, the occurrence, and what follows it. -/
theorem Index_split {s sub : Str} {m : Nat} (h : Index s sub = some m) :
    s = s.take m ++ sub ++ s.drop (m + sub.length) := by
  obtain ⟨post, hpost⟩ := (Index_eq_some h).1
  have h1 : s = s.take m ++ s.drop m := (List.take_append_drop m s).symm
  have h2 : s.drop (m + sub.length) = post := by
    rw [← List.drop_drop, ← hpost]
    simp
  rw [h2, List.append_assoc, hpost]
  exact h1

theorem countLoop_eq_zero {sub s : Str} {fuel : Nat}
    (h : countLoop sub (fuel + 1) s = 0) : Index s sub = none := by
  simp only [countLoop] at h
  split at h
  · assumption
  · omega

theorem Index_nil_of_ne_nil {sub : Str} (hsub : sub ≠ []) : Index [] sub = none := by
  cases sub with
  | nil => exact absurd rfl hsub
  | cons a t => simp [Index, List.isPrefixOf]

theorem splitLoop_head (sep : Str) (n : Nat) (s : Str) :
    (splitLoop sep n s)[0]? =
      some (match n, Index s sep with
        | 0, _ => s
        | _ + 1, none => s
        | _ + 1, some m => s.take m) := by
  cases n with
  | zero => simp [splitLoop]
  | succ n =>
    simp only [splitLoop]
    cases Index s sep <;> simp

/-- Element 0 of `Split s sep` exists, and is `s` cut at the first
occurrence of `sep` when there is one. -/
theorem Split_head {s sep : Str} (hsep : sep ≠ []) :
    (Split s sep)[0]? =
      some (match Index s sep with
        | none => s
        | some m => s.take m) := by
  have hn : min (Count s sep + 1) (s.length + 1) - 1 = 0 → Index s sep = none := by
    intro h0
    cases s with
    | nil => exact Index_nil_of_ne_nil hsep
    | cons c t =>
      have hc : Count (c :: t) sep = 0 := by
        simp only [List.length_cons] at h0
        omega
      simp only [Count, if_neg hsep, List.length_cons] at hc
      exact countLoop_eq_zero hc
  simp only [Split, if_neg hsep]
  rw [splitLoop_head]
  generalize min (Count s sep + 1) (s.length + 1) - 1 = n at hn
  cases n with
  | zero => simp [hn rfl]
  | succ n => cases Index s sep <;> rfl

theorem Index_single_none {c : Char} :
    ∀ {s : Str}, Index s [c] = none → c ∉ s := by
  intro s h hc
  have h1 := Index_eq_none_iff.mp h
  obtain ⟨a, b, rfl⟩ := List.append_of_mem hc
  exact h1 ⟨a, b, by simp⟩

theorem Index_single_some {c : Char} :
    ∀ {s : Str} {j : Nat}, Index s [c] = some j →
      c ∉ s.take j ∧ s = s.take j ++ c :: s.drop (j + 1) := by
  intro s j h
  have hs := Index_split h
  simp only [List.length_singleton, List.append_assoc, List.singleton_append] at hs
  refine ⟨?_, hs⟩
  intro hc
  obtain ⟨k, hk, hkc⟩ := List.mem_iff_getElem.mp hc
  have hkj : k < j := by
    simp only [List.length_take] at hk
    omega
  have hks : k < s.length := by
    simp only [List.length_take] at hk
    omega
  rw [List.getElem_take] at hkc
  apply (Index_eq_some h).2 k hkj
  rw [List.drop_eq_getElem_cons hks, hkc]
  exact ⟨_, rfl⟩

theorem countLoop_single (c : Char) :
    ∀ (fuel : Nat) (s : Str), s.length ≤ fuel → countLoop [c] fuel s = s.count c := by
  intro fuel
  induction fuel with
  | zero =>
    intro s hs
    have : s = [] := List.length_eq_zero.mp (Nat.le_zero.mp hs)
    subst this
    simp [countLoop]
  | succ fuel ih =>
    intro s hs
    simp only [countLoop]
    cases hI : Index s [c] with
    | none =>
      simp only
      exact (List.count_eq_zero.mpr (Index_single_none hI)).symm
    | some j =>
      simp only [List.length_singleton]
      obtain ⟨hpre, hsplit⟩ := Index_single_some hI
      have hlen : (s.drop (j + 1)).length ≤ fuel := by
        have := congrArg List.length hsplit
        simp only [List.length_append, List.length_cons] at this
        omega
      rw [ih _ hlen]
      conv_rhs => rw [hsplit]
      simp only [List.count_append, List.count_cons_self, List.count_eq_zero.mpr hpre]
      omega

theorem replaceLoop_single (c d : Char) :
    ∀ (n : Nat) (s : Str), s.count c ≤ n →
      replaceLoop [c] [d] n s = s.map (fun x => if x = c then d else x) := by
  have hid : ∀ s : Str, c ∉ s → s.map (fun x => if x = c then d else x) = s := by
    intro s hs
    conv_rhs => rw [← List.map_id s]
    apply List.map_congr_left
    intro x hx
    have : x ≠ c := fun h => hs (h ▸ hx)
    simp [this]
  intro n
  induction n with
  | zero =>
    intro s hs
    simp only [replaceLoop]
    exact (hid s (List.count_eq_zero.mp (Nat.le_zero.mp hs))).symm
  | succ n ih =>
    intro s hs
    simp only [replaceLoop]
    cases hI : Index s [c] with
    | none => exact (hid s (Index_single_none hI)).symm
    | some j =>
      simp only [List.length_singleton]
      obtain ⟨hpre, hsplit⟩ := Index_single_some hI
      have hcount : (s.drop (j + 1)).count c ≤ n := by
        have := congrArg (List.count c) hsplit
        simp only [List.count_append, List.count_cons_self] at this
        omega
      rw [ih _ hcount]
      conv_rhs => rw [hsplit]
      simp [hid _ hpre]

/-- The call `strings.Replace(text, "\n", " ", -1)` of `getSectionText`
turns every newline into one space and leaves the other characters. -/
theorem Replace_newline (s : Str) :
    Replace s "\n".toList " ".toList (-1) =
      s.map (fun x => if x = '\n' then ' ' else x) := by
  have h1 : ("\n".toList : Str) = ['\n'] := rfl
  have h2 : (" ".toList : Str) = [' '] := rfl
  have hne : ¬ ((['\n'] : Str) = [' '] ∨ (-1 : Int) = 0) := by decide
  have hlt : ((-1 : Int) < 0 ∨ ((Count s ['\n'] : Nat) : Int) < -1) := Or.inl (by decide)
  rw [h1, h2]
  simp only [Replace, if_neg hne, if_pos hlt]
  have hC : Count s ['\n'] = s.count '\n' := by
    simp only [Count, if_neg (List.cons_ne_nil _ _)]
    exact countLoop_single '\n' _ s (Nat.le_refl _)
  by_cases hm : Count s ['\n'] = 0
  · rw [if_pos hm]
    rw [hC] at hm
    have := replaceLoop_single '\n' ' ' 0 s (Nat.le_of_eq hm)
    simpa [replaceLoop] using this
  · rw [if_neg hm]
    exact replaceLoop_single '\n' ' ' _ s (Nat.le_of_eq hC.symm)

theorem newline_not_mem_Replace (s : Str) :
    '\n' ∉ Replace s "\n".toList " ".toList (-1) := by
  rw [Replace_newline]
  intro h
  obtain ⟨x, _, hx⟩ := List.mem_map.mp h
  by_cases hxn : x = '\n'
  · rw [if_pos hxn] at hx
    exact absurd hx (by decide)
  · rw [if_neg hxn] at hx
    exact hxn hx

theorem TrimSpace_within (s : Str) : TrimSpace s <:+: s := by
  unfold TrimSpace
  have h1 : (s.dropWhile isSpace) <:+ s := List.dropWhile_suffix _
  have h2 : ((s.dropWhile isSpace).reverse.dropWhile isSpace) <:+
      (s.dropWhile isSpace).reverse := List.dropWhile_suffix _
  have h3 : ((s.dropWhile isSpace).reverse.dropWhile isSpace).reverse <+:
      s.dropWhile isSpace := by
    have := List.reverse_prefix.mpr h2
    simpa using this
  exact h3.isInfix.trans h1.isInfix

theorem mem_of_mem_TrimSpace {s : Str} {c : Char} (h : c ∈ TrimSpace s) : c ∈ s :=
  (TrimSpace_within s).subset h

/-- The result of `TrimSpace` does not end in white space. -/
theorem TrimSpace_getLast (s : Str) (c : Char)
    (h : (TrimSpace s).getLast? = some c) : isSpace c = false := by
  unfold TrimSpace at h
  rw [List.getLast?_reverse] at h
  have := List.head?_dropWhile_not isSpace (s.dropWhile isSpace).reverse
  rw [h] at this
  exact this

/-- The result of `TrimSpace` does not start with white space. -/
theorem TrimSpace_head (s : Str) (c : Char)
    (h : (TrimSpace s).head? = some c) : isSpace c = false := by
  unfold TrimSpace at h
  rw [List.head?_reverse] at h
  obtain ⟨t, ht⟩ : ((s.dropWhile isSpace).reverse.dropWhile isSpace) <:+
      (s.dropWhile isSpace).reverse := List.dropWhile_suffix _
  have h4 : (s.dropWhile isSpace).reverse.getLast? = some c := by
    rw [← ht, List.getLast?_append, h]
    rfl
  rw [List.getLast?_reverse] at h4
  have := List.head?_dropWhile_not isSpace s
  rw [h4] at this
  exact this

/-! ## Facts about `getSectionText` -/

theorem eachHeader_no_match {label : Str} :
    ∀ (sel : List Header) (i : Nat) (found : Int),
      (∀ h ∈ sel, TrimSpace h.text ≠ label) → eachHeader label sel i found = found := by
  intro sel
  induction sel with
  | nil => intro i found _; rfl
  | cons s rest ih =>
    intro i found hno
    simp only [eachHeader]
    rw [if_neg (hno s (List.mem_cons_self _ _))]
    exact ih _ _ (fun h hh => hno h (List.mem_cons_of_mem _ hh))

theorem eachHeader_last_match {label : Str} :
    ∀ (sel : List Header) (i : Nat) (found : Int),
      (∃ h ∈ sel, TrimSpace h.text = label) →
      ∃ (k : Nat) (h : Header), sel[k]? = some h ∧ TrimSpace h.text = label ∧
        (∀ (j : Nat) (h' : Header), k < j → sel[j]? = some h' → TrimSpace h'.text ≠ label) ∧
        eachHeader label sel i found = ((i + k : Nat) : Int) := by
  intro sel
  induction sel with
  | nil =>
    intro i found hex
    obtain ⟨h, hh, _⟩ := hex
    cases hh
  | cons s rest ih =>
    intro i found hex
    by_cases hrest : ∃ h ∈ rest, TrimSpace h.text = label
    · obtain ⟨k, h, hk, hm, hlast, he⟩ := ih (i + 1)
        (if TrimSpace s.text = label then (i : Int) else found) hrest
      refine ⟨k + 1, h, by simpa using hk, hm, ?_, ?_⟩
      · intro j h' hj hj'
        cases j with
        | zero => omega
        | succ j => exact hlast j h' (by omega) (by simpa using hj')
      · simp only [eachHeader]
        rw [he]
        congr 1
        omega
    · have hno : ∀ h ∈ rest, TrimSpace h.text ≠ label :=
        fun h hh hm => hrest ⟨h, hh, hm⟩
      have hs : TrimSpace s.text = label := by
        obtain ⟨h, hh, hm⟩ := hex
        rcases List.mem_cons.mp hh with rfl | hh
        · exact hm
        · exact absurd hm (hno h hh)
      refine ⟨0, s, by simp, hs, ?_, ?_⟩
      · intro j h' hj hj'
        cases j with
        | zero => omega
        | succ j =>
          have : rest[j]? = some h' := by simpa using hj'
          exact hno h' (List.getElem?_mem this)
      · simp only [eachHeader]
        rw [if_pos hs, eachHeader_no_match rest _ _ hno]
        rfl

theorem getSectionText_no_match {sel : List Header} {label : Str}
    (hno : ∀ h ∈ sel, TrimSpace h.text ≠ label) : getSectionText sel label = [] := by
  simp only [getSectionText, eachHeader_no_match sel 0 (-1) hno]
  rfl

theorem getSectionText_last_match {sel : List Header} {label : Str}
    (hex : ∃ h ∈ sel, TrimSpace h.text = label) :
    ∃ (k : Nat) (h : Header), sel[k]? = some h ∧ TrimSpace h.text = label ∧
      (∀ (j : Nat) (h' : Header), k < j → sel[j]? = some h' → TrimSpace h'.text ≠ label) ∧
      getSectionText sel label = cleanParentText h.parentText label := by
  obtain ⟨k, h, hk, hm, hlast, he⟩ := eachHeader_last_match sel 0 (-1) hex
  refine ⟨k, h, hk, hm, hlast, ?_⟩
  have hne : ((k : Nat) : Int) ≠ -1 := by omega
  rw [Nat.zero_add] at he
  simp only [getSectionText, he, if_neg hne, parentTextAt, Int.toNat_ofNat,
    List.get?_eq_getElem?, hk, cleanParentText]

theorem newline_not_mem_cleanParentText (p label : Str) :
    '\n' ∉ cleanParentText p label :=
  fun h => newline_not_mem_Replace _ (mem_of_mem_TrimSpace h)

theorem newline_not_mem_getSectionText (sel : List Header) (label : Str) :
    '\n' ∉ getSectionText sel label := by
  by_cases hex : ∃ h ∈ sel, TrimSpace h.text = label
  · obtain ⟨k, h, _, _, _, he⟩ := getSectionText_last_match hex
    rw [he]
    exact newline_not_mem_cleanParentText _ _
  · have hno : ∀ h ∈ sel, TrimSpace h.text ≠ label := fun h hh hm => hex ⟨h, hh, hm⟩
    rw [getSectionText_no_match hno]
    exact List.not_mem_nil _

/-! ## Facts about the usage truncation and the worker loop body -/

theorem usageComment_ne_nil : usageComment ≠ [] := by decide

theorem Split_usageComment_head (u : Str) :
    (Split u usageComment)[0]? = some (usagePrefix u) := by
  rw [Split_head usageComment_ne_nil]
  rfl

theorem usagePrefix_of_absent {u : Str} (h : ¬ usageComment <:+: u) :
    usagePrefix u = u := by
  simp only [usagePrefix, Index_eq_none_iff.mpr h]

theorem usagePrefix_of_occurs {u : Str} (h : usageComment <:+: u) :
    ∃ rest, u = usagePrefix u ++ usageComment ++ rest ∧
      ∀ k, k < (usagePrefix u).length → ¬ usageComment <+: u.drop k := by
  cases hI : Index u usageComment with
  | none => exact absurd h (Index_eq_none_iff.mp hI)
  | some m =>
    simp only [usagePrefix, hI]
    refine ⟨u.drop (m + usageComment.length), Index_split hI, ?_⟩
    intro k hk
    have : k < m := by
      simp only [List.length_take] at hk
      omega
    exact (Index_eq_some hI).2 k this

theorem usagePrefix_starts (u : Str) : usagePrefix u <+: u := by
  unfold usagePrefix
  cases Index u usageComment with
  | none => exact List.prefix_refl u
  | some m => exact List.take_prefix m u

theorem usageComment_not_infix_usagePrefix (u : Str) :
    ¬ usageComment <:+: usagePrefix u := by
  cases hI : Index u usageComment with
  | none =>
    simp only [usagePrefix, hI]
    exact Index_eq_none_iff.mp hI
  | some m =>
    simp only [usagePrefix, hI]
    intro hin
    obtain ⟨k, t, ht⟩ := occurs_iff_at_position.mp hin
    have hlen := congrArg List.length ht
    have hpos : 0 < usageComment.length := by decide
    simp only [List.length_append, List.length_drop, List.length_take] at hlen
    have hkm : k < m := by omega
    apply (Index_eq_some hI).2 k hkm
    have h2 : (u.take m).drop k <+: u.drop k := by
      rw [List.drop_take]
      exact List.take_prefix _ _
    exact (List.prefix_append _ _).trans (ht ▸ h2)

theorem workerBody_error {NewDocument : Fetcher} {j e : Str}
    (h : NewDocument (sprintfSlash baseURL j) = .error e) :
    workerBody NewDocument j =
      some { idiom := [], usage := [], definition := [], err := some e } := by
  simp only [workerBody, h]

theorem workerBody_ok {NewDocument : Fetcher} {j : Str} {doc : Document}
    (h : NewDocument (sprintfSlash baseURL j) = .ok doc) :
    workerBody NewDocument j =
      some { idiom := getSectionText doc.firstTabbertab sectionIdiom,
             usage := usagePrefix (getSectionText doc.firstTabbertab sectionUsage),
             definition := getSectionText doc.firstTabbertab sectionDefinition,
             err := none } := by
  simp only [workerBody, h, Split_usageComment_head]

/-- The loop body never panics: every job gives a record. -/
theorem workerBody_isSome (NewDocument : Fetcher) (j : Str) :
    ∃ r, workerBody NewDocument j = some r := by
  cases h : NewDocument (sprintfSlash baseURL j) with
  | error e => exact ⟨_, workerBody_error h⟩
  | ok doc => exact ⟨_, workerBody_ok h⟩

/-! ## The section extractor -/

/-- C2: when at least one `p > strong` element of the region has trimmed
text equal to the label, `getSectionText` binds to the last such element:
there is a highest matching index, and whenever index `k` matches and no
higher index does, the result is computed from the parent text of element
`k` (so with matches at 0 and 2 only, from the parent of element 2). -/
theorem getSectionText_binds_last_match (sel : List Header) (label : Str)
    (hex : ∃ h ∈ sel, TrimSpace h.text = label) :
    (∃ (k : Nat) (h : Header), sel[k]? = some h ∧ TrimSpace h.text = label ∧
      ∀ (j : Nat) (h' : Header), k < j → sel[j]? = some h' → TrimSpace h'.text ≠ label) ∧
    (∀ (k : Nat) (h : Header), sel[k]? = some h → TrimSpace h.text = label →
      (∀ (j : Nat) (h' : Header), k < j → sel[j]? = some h' → TrimSpace h'.text ≠ label) →
      getSectionText sel label = cleanParentText h.parentText label) := by
  obtain ⟨k0, h0, hk0, hm0, hlast0, he0⟩ := getSectionText_last_match hex
  refine ⟨⟨k0, h0, hk0, hm0, hlast0⟩, ?_⟩
  intro k h hk hm hlast
  have hkk : k = k0 := by
    rcases Nat.lt_trichotomy k k0 with hlt | heq | hgt
    · exact absurd hm0 (hlast k0 h0 hlt hk0)
    · exact heq
    · exact absurd hm (hlast0 k h hgt hk)
  subst hkk
  rw [hk0] at hk
  cases hk
  exact he0

/-- C2, on a region with matches at index 0 and index 2: the text comes
from the parent of element 2. -/
theorem getSectionText_binds_last_match_witness :
    (∃ h ∈ tieBreakRegion, TrimSpace h.text = sectionIdiom) ∧
    getSectionText tieBreakRegion sectionIdiom = "Dios le ayuda".toList ∧
    getSectionText tieBreakRegion sectionIdiom =
      cleanParentText "Enunciado: \nDios le ayuda ".toList sectionIdiom :=
  ⟨by decide, by decide,
    (getSectionText_binds_last_match tieBreakRegion sectionIdiom (by decide)).2 2
      { text := "Enunciado: ".toList, parentText := "Enunciado: \nDios le ayuda ".toList }
      (by decide) (by decide)
      (fun j h' hj hj' => by
        have hlen : j < tieBreakRegion.length := by
          rcases List.getElem?_eq_some.mp hj' with ⟨hl, _⟩
          exact hl
        have : tieBreakRegion.length = 3 := by decide
        omega)⟩

/-- C3: the usage truncation `strings.Split(u, usageComment)[0]` is defined
for every `u`; when `u` contains the marker the result is the part of `u`
before the first occurrence of the marker, not trimmed again; when `u` does
not contain the marker the result is `u`; the result never contains the
marker. -/
theorem usage_truncation (u : Str) :
    ∃ p : Str, (Split u usageComment)[0]? = some p ∧
      (usageComment <:+: u →
        ∃ rest, u = p ++ usageComment ++ rest ∧
          ∀ k, k < p.length → ¬ usageComment <+: u.drop k) ∧
      (¬ usageComment <:+: u → p = u) ∧
      ¬ usageComment <:+: p :=
  ⟨usagePrefix u, Split_usageComment_head u, usagePrefix_of_occurs,
    usagePrefix_of_absent, usageComment_not_infix_usagePrefix u⟩

/-- C3, on the example of the specification: the result keeps its trailing
space. -/
theorem usage_truncation_witness :
    usageComment <:+: usageExample ∧
    (Split usageExample usageComment)[0]? = some "en frases afirmativas ".toList ∧
    (Split [] usageComment)[0]? = some [] ∧
    ∃ p : Str, (Split usageExample usageComment)[0]? = some p ∧
      (usageComment <:+: usageExample →
        ∃ rest, usageExample = p ++ usageComment ++ rest ∧
          ∀ k, k < p.length → ¬ usageComment <+: usageExample.drop k) ∧
      (¬ usageComment <:+: usageExample → p = usageExample) ∧
      ¬ usageComment <:+: p :=
  ⟨⟨"en frases afirmativas ".toList, ": añade énfasis".toList, by decide⟩,
    by decide, by decide, usage_truncation usageExample⟩

theorem TrimPrefix_append (label rest : Str) : TrimPrefix (label ++ rest) label = rest := by
  have h : HasPrefix (label ++ rest) label = true := by
    simp [HasPrefix, List.isPrefixOf_iff_prefix]
  simp [TrimPrefix, h]

/-- C6, as stated, fails: the paragraph `Enunciado: Enunciado: Al pan, pan`
loses one leading label only, and the text returned still begins with the
label. -/
theorem getSectionText_may_begin_with_label :
    (∃ h ∈ labelTwiceRegion, TrimSpace h.text = sectionIdiom) ∧
    getSectionText labelTwiceRegion sectionIdiom = "Enunciado: Al pan, pan".toList ∧
    HasPrefix (getSectionText labelTwiceRegion sectionIdiom) sectionIdiom = true := by
  decide

/-- C6, amended: when an element matches, `getSectionText` returns the
parent text of the last matching element with one leading occurrence of the
label removed, every newline turned into one space, and the white space at
both ends trimmed; the returned text contains no newline and neither starts
nor ends with white space. -/
theorem getSectionText_cleans_parent_text (sel : List Header) (label : Str)
    (hex : ∃ h ∈ sel, TrimSpace h.text = label) :
    ∃ (k : Nat) (h : Header), sel[k]? = some h ∧ TrimSpace h.text = label ∧
      (∀ (j : Nat) (h' : Header), k < j → sel[j]? = some h' → TrimSpace h'.text ≠ label) ∧
      getSectionText sel label =
        TrimSpace ((TrimPrefix h.parentText label).map
          (fun x => if x = '\n' then ' ' else x)) ∧
      (∀ rest, h.parentText = label ++ rest → TrimPrefix h.parentText label = rest) ∧
      '\n' ∉ getSectionText sel label ∧
      (∀ c, (getSectionText sel label).head? = some c → isSpace c = false) ∧
      (∀ c, (getSectionText sel label).getLast? = some c → isSpace c = false) := by
  obtain ⟨k, h, hk, hm, hlast, he⟩ := getSectionText_last_match hex
  refine ⟨k, h, hk, hm, hlast, ?_, ?_,
    newline_not_mem_getSectionText sel label, ?_, ?_⟩
  · rw [he, cleanParentText, Replace_newline]
  · intro rest hrest
    rw [hrest, TrimPrefix_append]
  · intro c hc
    rw [he] at hc
    exact TrimSpace_head _ c hc
  · intro c hc
    rw [he] at hc
    exact TrimSpace_getLast _ c hc

/-- C6, amended, on a region with matches at index 0 and index 2, the
second with a newline and white space around the text: the text of the
later paragraph is returned, cleaned. -/
theorem getSectionText_cleans_parent_text_witness :
    (∃ h ∈ tieBreakRegion, TrimSpace h.text = sectionIdiom) ∧
    getSectionText tieBreakRegion sectionIdiom = "Dios le ayuda".toList ∧
    ∃ (k : Nat) (h : Header), tieBreakRegion[k]? = some h ∧
      TrimSpace h.text = sectionIdiom ∧
      (∀ (j : Nat) (h' : Header), k < j → tieBreakRegion[j]? = some h' →
        TrimSpace h'.text ≠ sectionIdiom) ∧
      getSectionText tieBreakRegion sectionIdiom =
        TrimSpace ((TrimPrefix h.parentText sectionIdiom).map
          (fun x => if x = '\n' then ' ' else x)) ∧
      (∀ rest, h.parentText = sectionIdiom ++ rest →
        TrimPrefix h.parentText sectionIdiom = rest) ∧
      '\n' ∉ getSectionText tieBreakRegion sectionIdiom ∧
      (∀ c, (getSectionText tieBreakRegion sectionIdiom).head? = some c →
        isSpace c = false) ∧
      (∀ c, (getSectionText tieBreakRegion sectionIdiom).getLast? = some c →
        isSpace c = false) :=
  ⟨by decide, by decide,
    getSectionText_cleans_parent_text tieBreakRegion sectionIdiom (by decide)⟩

theorem isEmpty_iff (r : refran) :
    r.isEmpty = true ↔ r.idiom = [] ∧ r.usage = [] ∧ r.definition = [] := by
  simp only [refran.isEmpty, missingMarker, Bool.and_eq_true, beq_iff_eq]
  constructor
  · rintro ⟨⟨h1, h2⟩, h3⟩
    exact ⟨h1, h3, h2⟩
  · rintro ⟨h1, h2, h3⟩
    exact ⟨⟨h1, h3⟩, h2⟩

/-- C7: when no `p > strong` element of the region has trimmed text equal
to the label (in particular in a region without such elements),
`getSectionText` returns the empty string; so for a fetched document in
which none of the three labels matches, the worker builds the record with
no error and three empty texts, and the writer prints nothing for it. -/
theorem no_match_gives_empty_unwritten_record :
    (∀ (sel : List Header) (label : Str),
      (∀ h ∈ sel, TrimSpace h.text ≠ label) → getSectionText sel label = []) ∧
    (∀ label : Str, getSectionText [] label = []) ∧
    (∀ (NewDocument : Fetcher) (j : Str) (doc : Document),
      NewDocument (sprintfSlash baseURL j) = .ok doc →
      (∀ h ∈ doc.firstTabbertab, TrimSpace h.text ≠ sectionIdiom ∧
        TrimSpace h.text ≠ sectionUsage ∧ TrimSpace h.text ≠ sectionDefinition) →
      workerBody NewDocument j =
        some { idiom := [], usage := [], definition := [], err := none } ∧
      ∀ stdout : List Str,
        writeRecord stdout { idiom := [], usage := [], definition := [], err := none }
          = stdout) := by
  refine ⟨fun sel label hno => getSectionText_no_match hno, fun label => rfl, ?_⟩
  intro NewDocument j doc hdoc hno
  refine ⟨?_, fun stdout => rfl⟩
  rw [workerBody_ok hdoc,
    getSectionText_no_match (fun h hh => (hno h hh).1),
    getSectionText_no_match (fun h hh => (hno h hh).2.1),
    getSectionText_no_match (fun h hh => (hno h hh).2.2)]
  rfl

/-- C7, on a fetched page that has a labelled paragraph but none of the
three labels. -/
theorem no_match_gives_empty_unwritten_record_witness :
    getSectionText otherDocument.firstTabbertab sectionUsage = [] ∧
    workerBody exampleFetcher "ficha.aspx?Par=58002".toList =
        some { idiom := [], usage := [], definition := [], err := none } ∧
      ∀ stdout : List Str,
        writeRecord stdout { idiom := [], usage := [], definition := [], err := none }
          = stdout :=
  ⟨no_match_gives_empty_unwritten_record.1 otherDocument.firstTabbertab sectionUsage
      (by decide),
    no_match_gives_empty_unwritten_record.2.2 exampleFetcher "ficha.aspx?Par=58002".toList
      otherDocument rfl (by decide)⟩

/-! ## The writer loop -/

theorem writeRecord_eq (stdout : List Str) (r : refran) :
    writeRecord stdout r = stdout ++ (specLine r).toList := by
  cases r with
  | mk idiom usage definition err =>
    cases err with
    | some e => simp [writeRecord, specLine, errorLine]
    | none =>
      by_cases hE : refran.isEmpty ⟨idiom, usage, definition, none⟩ = true
      · have h3 := (isEmpty_iff _).mp hE
        simp only at h3
        obtain ⟨rfl, rfl, rfl⟩ := h3
        simp [writeRecord, specLine, refran.isEmpty, missingMarker]
      · have h3 : ¬ (idiom = [] ∧ usage = [] ∧ definition = []) :=
          fun h => hE ((isEmpty_iff _).mpr h)
        simp only [writeRecord, specLine, hE, if_neg h3, rowLine, Option.toList]
        simp

theorem foldl_writeRecord (rs : List refran) :
    ∀ stdout : List Str,
      rs.foldl writeRecord stdout = stdout ++ rs.filterMap specLine := by
  induction rs with
  | nil => intro stdout; simp
  | cons r rs ih =>
    intro stdout
    rw [List.foldl_cons, ih, writeRecord_eq]
    cases h : specLine r <;> simp [List.filterMap_cons, h]

theorem inSlugsWriter_eq (rs : List refran) :
    inSlugsWriter rs = headerLine :: rs.filterMap specLine := by
  simp [inSlugsWriter, foldl_writeRecord]

theorem specLine_eq_none_iff (r : refran) :
    specLine r = none ↔ r.err = none ∧ r.idiom = [] ∧ r.usage = [] ∧ r.definition = [] := by
  cases r with
  | mk idiom usage definition err =>
    cases err with
    | some e => simp [specLine]
    | none => simp [specLine]

theorem rowLine_newline {a b c : Str} (ha : '\n' ∉ a) (hb : '\n' ∉ b) (hc : '\n' ∉ c) :
    (rowLine a b c).count '\n' = 1 ∧ (rowLine a b c).getLast? = some '\n' := by
  have ht : ("\t".toList : Str) = ['\t'] := rfl
  have hn : ("\n".toList : Str) = ['\n'] := rfl
  have htn : ('\t' == '\n') = false := by decide
  constructor
  · simp only [rowLine, ht, hn, List.count_append, List.count_eq_zero.mpr ha,
      List.count_eq_zero.mpr hb, List.count_eq_zero.mpr hc, List.count_cons, List.count_nil,
      htn]
    simp
  · unfold rowLine
    rw [hn, List.getLast?_append]
    rfl

theorem errorLine_newline {e : Str} (he : '\n' ∉ e) :
    (errorLine e).count '\n' = 1 := by
  have h1 : ("ERROR: ".toList : Str).count '\n' = 0 := by decide
  have h2 : ("\n".toList : Str).count '\n' = 1 := by decide
  simp only [errorLine, List.count_append, h1, h2, List.count_eq_zero.mpr he]

theorem specLine_newline {r : refran} {line : Str} (hs : specLine r = some line)
    (hr : r.newlineFree) : line.count '\n' = 1 := by
  obtain ⟨h1, h2, h3, h4⟩ := hr
  cases r with
  | mk idiom usage definition err =>
    cases err with
    | some e =>
      simp only [specLine, Option.some.injEq] at hs
      rw [← hs]
      exact errorLine_newline (h4 e rfl)
    | none =>
      simp only [specLine] at hs
      split at hs
      · cases hs
      · simp only [Option.some.injEq] at hs
        rw [← hs]
        exact (rowLine_newline h1 h3 h2).1

theorem reported_iff (r : refran) : r.reported = true ↔ specLine r ≠ none := by
  rw [Ne, specLine_eq_none_iff]
  simp only [refran.reported, decide_eq_true_eq]
  constructor
  · rintro h ⟨h1, h2, h3, h4⟩
    rcases h with h | h | h | h
    · exact h h1
    · exact h h2
    · exact h h3
    · exact h h4
  · intro h
    by_contra hc
    simp only [not_or, not_not] at hc
    exact h hc

theorem length_filterMap_specLine (rs : List refran) :
    (rs.filterMap specLine).length = rs.countP refran.reported := by
  induction rs with
  | nil => rfl
  | cons r rs ih =>
    rw [List.countP_cons, ← ih]
    cases hs : specLine r with
    | none =>
      have : r.reported = false := by
        cases hr : r.reported with
        | false => rfl
        | true => exact absurd hs ((reported_iff r).mp hr)
      simp [List.filterMap_cons, hs, this]
    | some line =>
      have : r.reported = true := (reported_iff r).mpr (by rw [hs]; exact Option.noConfusion)
      simp [List.filterMap_cons, hs, this]

theorem newlines_filterMap_specLine (rs : List refran) (hrs : ∀ r ∈ rs, r.newlineFree) :
    (rs.filterMap specLine).flatten.count '\n' = (rs.filterMap specLine).length := by
  induction rs with
  | nil => rfl
  | cons r rs ih =>
    have ih' := ih (fun r hr => hrs r (List.mem_cons_of_mem _ hr))
    cases hs : specLine r with
    | none => simpa [List.filterMap_cons, hs] using ih'
    | some line =>
      have h1 := specLine_newline hs (hrs r (List.mem_cons_self _ _))
      simp only [List.filterMap_cons, hs, List.flatten_cons, List.count_append, h1, ih',
        List.length_cons]
      omega

/-- C4: the writer loop prints nothing for a record exactly when the record
has no error and its three texts are empty; a record with an error is
always printed, also when `isEmpty` is true of it, and so is a record
without error that has a non-empty text; hence the number of lines printed
after the header (one `Printf` each) is the number of records that are
failed or non-empty, and it is also the number of newline characters after
the header when no text or message holds a newline. -/
theorem writer_skips_exactly_empty_records :
    (∀ (r : refran) (stdout : List Str),
      writeRecord stdout r = stdout ↔
        (r.err = none ∧ r.idiom = [] ∧ r.usage = [] ∧ r.definition = [])) ∧
    (∀ (r : refran) (stdout : List Str),
      (r.err ≠ none ∨ r.idiom ≠ [] ∨ r.usage ≠ [] ∨ r.definition ≠ []) →
        ∃ line, writeRecord stdout r = stdout ++ [line]) ∧
    (∀ (e : Str) (stdout : List Str),
      refran.isEmpty { err := some e } = true ∧
        writeRecord stdout { err := some e } = stdout ++ [errorLine e]) ∧
    (∀ rs : List refran,
      ∃ lines, inSlugsWriter rs = headerLine :: lines ∧
        lines.length = rs.countP refran.reported ∧
        ((∀ r ∈ rs, r.newlineFree) →
          ((outputText (inSlugsWriter rs)).drop headerLine.length).count '\n'
            = rs.countP refran.reported)) := by
  refine ⟨?_, ?_, ?_, ?_⟩
  · intro r stdout
    rw [writeRecord_eq, ← specLine_eq_none_iff]
    cases specLine r <;> simp
  · intro r stdout h
    rw [writeRecord_eq]
    cases hs : specLine r with
    | none =>
      have := (specLine_eq_none_iff r).mp hs
      rcases h with h | h | h | h
      · exact absurd this.1 h
      · exact absurd this.2.1 h
      · exact absurd this.2.2.1 h
      · exact absurd this.2.2.2 h
    | some line => exact ⟨line, rfl⟩
  · intro e stdout
    exact ⟨rfl, rfl⟩
  · intro rs
    refine ⟨rs.filterMap specLine, inSlugsWriter_eq rs, length_filterMap_specLine rs, ?_⟩
    intro hrs
    rw [inSlugsWriter_eq, outputText, List.flatten_cons, List.drop_left,
      newlines_filterMap_specLine rs hrs, length_filterMap_specLine]

/-- C4, on a failed, an empty and a full record: two lines follow the
header. -/
theorem writer_skips_exactly_empty_records_witness :
    (∃ line, writeRecord [headerLine] { idiom := "Al pan, pan".toList }
      = [headerLine] ++ [line]) ∧
    (∃ lines, inSlugsWriter exampleRecords = headerLine :: lines ∧
      lines.length = exampleRecords.countP refran.reported ∧
      ((∀ r ∈ exampleRecords, r.newlineFree) →
        ((outputText (inSlugsWriter exampleRecords)).drop headerLine.length).count '\n'
          = exampleRecords.countP refran.reported)) ∧
    (∀ r ∈ exampleRecords, r.newlineFree) ∧
    exampleRecords.countP refran.reported = 2 ∧
    (inSlugsWriter exampleRecords).length = 3 :=
  ⟨writer_skips_exactly_empty_records.2.1 { idiom := "Al pan, pan".toList } [headerLine]
      (Or.inr (Or.inl (by decide))),
    writer_skips_exactly_empty_records.2.2.2 exampleRecords,
    by decide, by decide, by decide⟩

/-- C5: the text written in fetch mode is the header line, once and first
(also for no records), followed in arrival order by one line per written
record: `ERROR: ` and the message for a record with an error, and idiom,
definition, usage separated by tabs for a non-empty record without error,
the fields copied as they are. -/
theorem inSlugs_output_format (rs : List refran) :
    inSlugsWriter rs = "Refran\tSignificado\tUso\n".toList :: rs.filterMap specLine ∧
    outputText (inSlugsWriter rs) =
      "Refran\tSignificado\tUso\n".toList ++ (rs.filterMap specLine).flatten ∧
    inSlugsWriter [] = ["Refran\tSignificado\tUso\n".toList] := by
  refine ⟨inSlugsWriter_eq rs, ?_, rfl⟩
  rw [inSlugsWriter_eq, outputText, List.flatten_cons]
  rfl

/-- C10: for every fetched document the worker builds a record without
error whose idiom, definition and truncated usage contain no newline; so
the row the writer prints for it, when it is not empty, has exactly one
newline, its last character. -/
theorem worker_row_is_one_line (NewDocument : Fetcher) (j : Str) (doc : Document)
    (hdoc : NewDocument (sprintfSlash baseURL j) = .ok doc) :
    ∃ r, workerBody NewDocument j = some r ∧ r.err = none ∧
      '\n' ∉ r.idiom ∧ '\n' ∉ r.definition ∧ '\n' ∉ r.usage ∧
      (r.isEmpty = false →
        ∀ stdout : List Str, ∃ row, writeRecord stdout r = stdout ++ [row] ∧
          row = r.idiom ++ "\t".toList ++ r.definition ++ "\t".toList ++ r.usage ++ "\n".toList ∧
          row.count '\n' = 1 ∧ row.getLast? = some '\n') := by
  have hu : '\n' ∉ usagePrefix (getSectionText doc.firstTabbertab sectionUsage) :=
    fun h => newline_not_mem_getSectionText _ _ ((usagePrefix_starts _).subset h)
  refine ⟨_, workerBody_ok hdoc, rfl, newline_not_mem_getSectionText _ _,
    newline_not_mem_getSectionText _ _, hu, ?_⟩
  intro hE stdout
  refine ⟨_, ?_, rfl, ?_⟩
  · simp only [writeRecord, hE]
    rfl
  · exact rowLine_newline (newline_not_mem_getSectionText _ _)
      (newline_not_mem_getSectionText _ _) hu

/-- C10, on a page whose definition paragraph holds a newline. -/
theorem worker_row_is_one_line_witness :
    workerBody exampleFetcher "ficha.aspx?Par=58001".toList =
      some { idiom := "A buen hambre no hay pan duro".toList,
             usage := "De uso actual ".toList,
             definition := "Cuando se tiene necesidad, no se repara en delicadezas.".toList } ∧
    ∃ r, workerBody exampleFetcher "ficha.aspx?Par=58001".toList = some r ∧ r.err = none ∧
      '\n' ∉ r.idiom ∧ '\n' ∉ r.definition ∧ '\n' ∉ r.usage ∧
      (r.isEmpty = false →
        ∀ stdout : List Str, ∃ row, writeRecord stdout r = stdout ++ [row] ∧
          row = r.idiom ++ "\t".toList ++ r.definition ++ "\t".toList ++ r.usage ++ "\n".toList ∧
          row.count '\n' = 1 ∧ row.getLast? = some '\n') :=
  ⟨by decide,
    worker_row_is_one_line exampleFetcher "ficha.aspx?Par=58001".toList fichaDocument rfl⟩

/-! ## Facts about the scanner -/

theorem scanLine_nil : scanLine [] = none := rfl

/-- A successful `Scan` consumes at least one character. -/
theorem scanLine_shorter {input line rest : Str} (h : scanLine input = some (line, rest)) :
    rest.length < input.length := by
  unfold scanLine at h
  split at h
  · cases h
  · rename_i hne
    simp only at h
    split at h
    · cases h
    · simp only [Option.some.injEq, Prod.mk.injEq] at h
      obtain ⟨_, hrest⟩ := h
      rw [← hrest, List.length_drop]
      have hsuf := (List.dropWhile_suffix (l := input) (fun c => c != '\n')).length_le
      have hpos : 0 < input.length := List.length_pos.mpr hne
      omega

theorem scanLoop_fuel :
    ∀ (f f' : Nat) (input : Str), input.length ≤ f → input.length ≤ f' →
      scanLoop f input = scanLoop f' input := by
  intro f
  induction f with
  | zero =>
    intro f' input h _
    have : input = [] := List.length_eq_zero.mp (Nat.le_zero.mp h)
    subst this
    cases f' with
    | zero => rfl
    | succ f' => simp [scanLoop, scanLine_nil]
  | succ f ih =>
    intro f' input h h'
    cases f' with
    | zero =>
      have : input = [] := List.length_eq_zero.mp (Nat.le_zero.mp h')
      subst this
      simp [scanLoop, scanLine_nil]
    | succ f' =>
      simp only [scanLoop]
      cases hs : scanLine input with
      | none => rfl
      | some p =>
        obtain ⟨line, rest⟩ := p
        have := scanLine_shorter hs
        simp only
        rw [ih f' rest (by omega) (by omega)]

theorem scanTokens_of_none {input : Str} (h : scanLine input = none) :
    scanTokens input = [] := by
  unfold scanTokens
  cases hl : input.length with
  | zero => rfl
  | succ n => simp [scanLoop, h]

theorem scanTokens_of_some {input line rest : Str} (h : scanLine input = some (line, rest)) :
    scanTokens input = line :: scanTokens rest := by
  have hlt := scanLine_shorter h
  unfold scanTokens
  cases hl : input.length with
  | zero => omega
  | succ n =>
    simp only [scanLoop, h]
    rw [scanLoop_fuel n rest.length rest (by omega) (Nat.le_refl _)]

theorem takeWhile_append_newline :
    ∀ (line rest : Str), '\n' ∉ line →
      (line ++ '\n' :: rest).takeWhile (fun c => c != '\n') = line ∧
      (line ++ '\n' :: rest).dropWhile (fun c => c != '\n') = '\n' :: rest := by
  intro line
  induction line with
  | nil => intro rest _; simp [List.takeWhile, List.dropWhile]
  | cons c line ih =>
    intro rest hl
    have hc : c ≠ '\n' := fun h => hl (h ▸ List.mem_cons_self _ _)
    have hl' : '\n' ∉ line := fun h => hl (List.mem_cons_of_mem _ h)
    obtain ⟨h1, h2⟩ := ih rest hl'
    have hb : (c != '\n') = true := by simpa using hc
    constructor
    · rw [List.cons_append, List.takeWhile_cons, hb]
      simp only [if_true]
      rw [h1]
    · rw [List.cons_append, List.dropWhile_cons, hb]
      simp only [if_true]
      rw [h2]

/-- `Scan` delivers a line that has no newline inside and fewer than
`maxScanTokenSize` bytes. -/
theorem scanLine_line {line : Str} (rest : Str) (hnl : '\n' ∉ line)
    (hlen : byteLen line < maxScanTokenSize) :
    scanLine (line ++ '\n' :: rest) = some (dropCR line, rest) := by
  obtain ⟨h1, h2⟩ := takeWhile_append_newline line rest hnl
  have hne : line ++ '\n' :: rest ≠ [] := by simp
  simp only [scanLine, if_neg hne, h1, h2, if_neg (Nat.not_le.mpr hlen), List.drop_one,
    List.tail_cons]

/-- `Scan` fails on a line of `maxScanTokenSize` bytes or more, whatever
follows it. -/
theorem scanLine_too_long {line : Str} (rest : Str) (hnl : '\n' ∉ line)
    (hlen : maxScanTokenSize ≤ byteLen line) :
    scanLine (line ++ '\n' :: rest) = none := by
  obtain ⟨h1, _⟩ := takeWhile_append_newline line rest hnl
  have hne : line ++ '\n' :: rest ≠ [] := by simp
  simp only [scanLine, if_neg hne, h1, if_pos hlen]

theorem byteLen_replicate (n : Nat) (c : Char) :
    byteLen (List.replicate n c) = n * c.utf8Size := by
  induction n with
  | zero => simp [byteLen]
  | succ n ih =>
    simp only [byteLen, List.replicate_succ, List.map_cons, List.sum_cons] at ih ⊢
    rw [ih]
    ring

theorem stdinOf_cons (line : Str) (lines : List Str) :
    stdinOf (line :: lines) = line ++ '\n' :: stdinOf lines := by
  simp [stdinOf]

/-- On lines without a newline inside, without a trailing carriage return
and shorter than `maxScanTokenSize` bytes, the scanner delivers every
line. -/
theorem scanTokens_stdinOf (lines : List Str)
    (h : ∀ l ∈ lines, '\n' ∉ l ∧ l.getLast? ≠ some '\r' ∧ byteLen l < maxScanTokenSize) :
    scanTokens (stdinOf lines) = lines := by
  induction lines with
  | nil => rfl
  | cons l lines ih =>
    obtain ⟨hnl, hcr, hlen⟩ := h l (List.mem_cons_self _ _)
    rw [stdinOf_cons, scanTokens_of_some (scanLine_line _ hnl hlen),
      ih (fun l hl => h l (List.mem_cons_of_mem _ hl))]
    simp [dropCR, hcr]

/-! ## The transition system of `inSlugs` -/

theorem set_split {α : Type} :
    ∀ {l : List α} {i : Nat} {a : α}, l[i]? = some a → ∀ b : α,
      ∃ l1 l2, l = l1 ++ a :: l2 ∧ l.set i b = l1 ++ b :: l2 := by
  intro l
  induction l with
  | nil => intro i a h; simp at h
  | cons x l ih =>
    intro i a h b
    cases i with
    | zero =>
      simp only [List.getElem?_cons_zero, Option.some.injEq] at h
      subst h
      exact ⟨[], l, rfl, rfl⟩
    | succ i =>
      simp only [List.getElem?_cons_succ] at h
      obtain ⟨l1, l2, h1, h2⟩ := ih h b
      exact ⟨x :: l1, l2, by rw [h1]; rfl, by rw [List.set_cons_succ, h2]; rfl⟩

theorem Pipeline.step_feed {f : Fetcher} {s t : Pipeline} {i : Nat}
    (h : Pipeline.step f s (.feed i) = some t) :
    ∃ j rest l1 l2, scanLine s.stdin = some (j, rest) ∧
      s.workers = l1 ++ Worker.waiting :: l2 ∧
      t = { s with stdin := rest, workers := l1 ++ Worker.fetching j :: l2 } := by
  simp only [Pipeline.step] at h
  split at h
  · cases h
  · split at h
    · rename_i j rest hs hw
      obtain ⟨l1, l2, h1, h2⟩ := set_split hw (Worker.fetching j)
      simp only [Option.some.injEq] at h
      exact ⟨j, rest, l1, l2, hs, h1, by rw [← h, h2]⟩
    · cases h

theorem Pipeline.step_work {f : Fetcher} {s t : Pipeline} {i : Nat}
    (h : Pipeline.step f s (.work i) = some t) :
    ∃ j r l1 l2, workerBody f j = some r ∧ s.workers = l1 ++ Worker.fetching j :: l2 ∧
      t = { s with workers := l1 ++ Worker.sending r :: l2 } := by
  simp only [Pipeline.step] at h
  split at h
  · rename_i j hw
    split at h
    · rename_i r hr
      obtain ⟨l1, l2, h1, h2⟩ := set_split hw (Worker.sending r)
      simp only [Option.some.injEq] at h
      exact ⟨j, r, l1, l2, hr, h1, by rw [← h, h2]⟩
    · cases h
  · cases h

theorem Pipeline.step_emit {f : Fetcher} {s t : Pipeline} {i : Nat}
    (h : Pipeline.step f s (.emit i) = some t) :
    ∃ r l1 l2, s.headerPrinted = true ∧ s.workers = l1 ++ Worker.sending r :: l2 ∧
      t = { s with workers := l1 ++ Worker.waiting :: l2, received := s.received ++ [r],
                   stdout := writeRecord s.stdout r } := by
  simp only [Pipeline.step] at h
  split at h
  · rename_i r hw
    split at h
    · rename_i hp
      obtain ⟨l1, l2, h1, h2⟩ := set_split hw Worker.waiting
      simp only [Option.some.injEq] at h
      exact ⟨r, l1, l2, hp, h1, by rw [← h, h2]⟩
    · cases h
  · cases h

theorem Pipeline.step_exit {f : Fetcher} {s t : Pipeline} {i : Nat}
    (h : Pipeline.step f s (.exit i) = some t) :
    ∃ l1 l2, s.jobsClosed = true ∧ s.workers = l1 ++ Worker.waiting :: l2 ∧
      t = { s with workers := l1 ++ Worker.exited :: l2 } := by
  simp only [Pipeline.step] at h
  split at h
  · rename_i hw
    split at h
    · rename_i hp
      obtain ⟨l1, l2, h1, h2⟩ := set_split hw Worker.exited
      simp only [Option.some.injEq] at h
      exact ⟨l1, l2, hp, h1, by rw [← h, h2]⟩
    · cases h
  · cases h

theorem Pipeline.step_header {f : Fetcher} {s t : Pipeline}
    (h : Pipeline.step f s .header = some t) :
    s.headerPrinted = false ∧
      t = { s with headerPrinted := true, stdout := s.stdout ++ [headerLine] } := by
  simp only [Pipeline.step] at h
  split at h
  · cases h
  · rename_i hp
    simp only [Option.some.injEq] at h
    exact ⟨by simpa using hp, h.symm⟩

theorem Pipeline.step_closeJobs {f : Fetcher} {s t : Pipeline}
    (h : Pipeline.step f s .closeJobs = some t) :
    scanLine s.stdin = none ∧ s.jobsClosed = false ∧ t = { s with jobsClosed := true } := by
  simp only [Pipeline.step] at h
  split at h
  · rename_i hp
    simp only [Option.some.injEq] at h
    exact ⟨hp.1, hp.2, h.symm⟩
  · cases h

theorem Pipeline.step_closeOutput {f : Fetcher} {s t : Pipeline}
    (h : Pipeline.step f s .closeOutput = some t) :
    (∀ w ∈ s.workers, w = Worker.exited) ∧ s.outputClosed = false ∧
      t = { s with outputClosed := true } := by
  simp only [Pipeline.step] at h
  split at h
  · rename_i hp
    simp only [Option.some.injEq] at h
    exact ⟨hp.1, hp.2, h.symm⟩
  · cases h

theorem Pipeline.init_inv (f : Fetcher) (input : Str) :
    Pipeline.Inv f input (Pipeline.init input) where
  workers_length := by simp [Pipeline.init]
  closed_stdin := by simp [Pipeline.init]
  exited_closed := by
    intro h
    simp only [Pipeline.init] at h
    exact absurd (List.eq_of_mem_replicate h) (by decide)
  output_closed := by simp [Pipeline.init]
  records := by
    have hw : ∀ n : Nat,
        (List.replicate n Worker.waiting).flatMap (Worker.owed f) = [] := by
      intro n
      induction n with
      | zero => rfl
      | succ n ih => simp [List.replicate_succ, Worker.owed]
    simp [Pipeline.init, hw]
  written := by simp [Pipeline.init]
  unwritten := by simp [Pipeline.init]

theorem Pipeline.step_inv {f : Fetcher} {input : Str} {s t : Pipeline} {a : PipeAction}
    (hinv : Pipeline.Inv f input s) (h : Pipeline.step f s a = some t) :
    Pipeline.Inv f input t := by
  obtain ⟨hlen, hcs, hec, hoc, hrec, hwr, hun⟩ := hinv
  cases a with
  | header =>
    obtain ⟨hp, rfl⟩ := Pipeline.step_header h
    refine ⟨hlen, hcs, hec, hoc, ?_, ?_, ?_⟩
    · simpa [hun hp] using hrec
    · simp [hwr, hp, hun hp, inSlugsWriter]
    · simp
  | feed i =>
    obtain ⟨j, rest, l1, l2, hs, hw, rfl⟩ := Pipeline.step_feed h
    have hjc : s.jobsClosed = false := by
      cases hc : s.jobsClosed with
      | false => rfl
      | true => rw [hcs hc] at hs; cases hs
    have htok := scanTokens_of_some hs
    refine ⟨?_, ?_, ?_, ?_, ?_, hwr, hun⟩
    · simpa [hw] using hlen
    · intro hc
      exact absurd hc (by simp [hjc])
    · intro hm
      apply hec
      rw [hw]
      simp only [List.mem_append, List.mem_cons] at hm ⊢
      rcases hm with hm | hm | hm
      · exact Or.inl hm
      · cases hm
      · exact Or.inr (Or.inr hm)
    · intro ho
      have := hoc ho Worker.waiting (by rw [hw]; simp)
      cases this
    · refine List.Perm.trans ?_ hrec
      rw [hw, htok]
      simp only [List.flatMap_append, List.flatMap_cons, Worker.owed, List.map_cons,
        List.nil_append, List.append_assoc, List.singleton_append]
      refine List.Perm.append_left _ (List.Perm.append_left _ ?_)
      exact List.perm_middle.symm
  | work i =>
    obtain ⟨j, r, l1, l2, hr, hw, rfl⟩ := Pipeline.step_work h
    refine ⟨?_, hcs, ?_, ?_, ?_, hwr, hun⟩
    · simpa [hw] using hlen
    · intro hm
      apply hec
      rw [hw]
      simp only [List.mem_append, List.mem_cons] at hm ⊢
      rcases hm with hm | hm | hm
      · exact Or.inl hm
      · cases hm
      · exact Or.inr (Or.inr hm)
    · intro ho
      have := hoc ho (Worker.fetching j) (by rw [hw]; simp)
      cases this
    · refine List.Perm.trans ?_ hrec
      rw [hw]
      simp only [List.flatMap_append, List.flatMap_cons, Worker.owed, hr]
      exact List.Perm.refl _
  | emit i =>
    obtain ⟨r, l1, l2, hp, hw, rfl⟩ := Pipeline.step_emit h
    refine ⟨?_, hcs, ?_, ?_, ?_, ?_, ?_⟩
    · simpa [hw] using hlen
    · intro hm
      apply hec
      rw [hw]
      simp only [List.mem_append, List.mem_cons] at hm ⊢
      rcases hm with hm | hm | hm
      · exact Or.inl hm
      · cases hm
      · exact Or.inr (Or.inr hm)
    · intro ho
      have := hoc ho (Worker.sending r) (by rw [hw]; simp)
      cases this
    · refine List.Perm.trans ?_ hrec
      rw [hw]
      simp only [List.flatMap_append, List.flatMap_cons, Worker.owed, List.map_append,
        List.map_cons, List.map_nil, List.nil_append, List.append_assoc,
        List.singleton_append]
      refine List.Perm.append_left _ ?_
      rw [List.perm_iff_count]
      intro x
      simp only [List.count_append, List.count_cons]
      omega
    · simp only [hp, if_true] at hwr ⊢
      rw [hwr, inSlugsWriter, inSlugsWriter, List.foldl_append]
      rfl
    · intro hp'
      simp only [hp] at hp'
      cases hp'
  | closeJobs =>
    obtain ⟨hs, hj, rfl⟩ := Pipeline.step_closeJobs h
    exact ⟨hlen, fun _ => hs, fun _ => rfl, hoc, hrec, hwr, hun⟩
  | exit i =>
    obtain ⟨l1, l2, hj, hw, rfl⟩ := Pipeline.step_exit h
    refine ⟨?_, hcs, fun _ => hj, ?_, ?_, hwr, hun⟩
    · simpa [hw] using hlen
    · intro ho
      have := hoc ho Worker.waiting (by rw [hw]; simp)
      cases this
    · refine List.Perm.trans ?_ hrec
      rw [hw]
      simp only [List.flatMap_append, List.flatMap_cons, Worker.owed]
      exact List.Perm.refl _
  | closeOutput =>
    obtain ⟨hall, ho, rfl⟩ := Pipeline.step_closeOutput h
    exact ⟨hlen, hcs, hec, fun _ => hall, hrec, hwr, hun⟩

theorem Pipeline.run_inv {f : Fetcher} {input : Str} :
    ∀ (sched : List PipeAction) {s t : Pipeline},
      Pipeline.Inv f input s → Pipeline.run f sched s = some t → Pipeline.Inv f input t := by
  intro sched
  induction sched with
  | nil =>
    intro s t hinv h
    simp only [Pipeline.run, Option.some.injEq] at h
    exact h ▸ hinv
  | cons a rest ih =>
    intro s t hinv h
    simp only [Pipeline.run] at h
    split at h
    · rename_i u hu
      exact ih (Pipeline.step_inv hinv hu) h
    · cases h

theorem Pipeline.step_measure {f : Fetcher} {s t : Pipeline} {a : PipeAction}
    (h : Pipeline.step f s a = some t) : t.measure + 1 = s.measure := by
  cases a with
  | header =>
    obtain ⟨hp, rfl⟩ := Pipeline.step_header h
    simp only [Pipeline.measure, hp]
    simp only [if_true, Bool.false_eq_true, if_false]
    omega
  | feed i =>
    obtain ⟨j, rest, l1, l2, hs, hw, rfl⟩ := Pipeline.step_feed h
    simp only [Pipeline.measure, scanTokens_of_some hs, hw, List.map_append, List.map_cons,
      List.sum_append, List.sum_cons, Worker.weight, List.length_cons]
    omega
  | work i =>
    obtain ⟨j, r, l1, l2, hr, hw, rfl⟩ := Pipeline.step_work h
    simp only [Pipeline.measure, hw, List.map_append, List.map_cons, List.sum_append,
      List.sum_cons, Worker.weight]
    omega
  | emit i =>
    obtain ⟨r, l1, l2, hp, hw, rfl⟩ := Pipeline.step_emit h
    simp only [Pipeline.measure, hw, List.map_append, List.map_cons, List.sum_append,
      List.sum_cons, Worker.weight]
    omega
  | closeJobs =>
    obtain ⟨hs, hj, rfl⟩ := Pipeline.step_closeJobs h
    simp only [Pipeline.measure, hj]
    simp only [if_true, Bool.false_eq_true, if_false]
    omega
  | exit i =>
    obtain ⟨l1, l2, hj, hw, rfl⟩ := Pipeline.step_exit h
    simp only [Pipeline.measure, hw, List.map_append, List.map_cons, List.sum_append,
      List.sum_cons, Worker.weight]
    omega
  | closeOutput =>
    obtain ⟨hall, ho, rfl⟩ := Pipeline.step_closeOutput h
    simp only [Pipeline.measure, ho]
    simp only [if_true, Bool.false_eq_true, if_false]
    omega

theorem Pipeline.run_measure {f : Fetcher} :
    ∀ (sched : List PipeAction) {s t : Pipeline},
      Pipeline.run f sched s = some t → t.measure + sched.length = s.measure := by
  intro sched
  induction sched with
  | nil =>
    intro s t h
    simp only [Pipeline.run, Option.some.injEq] at h
    simp [h]
  | cons a rest ih =>
    intro s t h
    simp only [Pipeline.run] at h
    split at h
    · rename_i u hu
      have h1 := ih h
      have h2 := Pipeline.step_measure hu
      simp only [List.length_cons]
      omega
    · cases h

theorem Pipeline.init_measure (input : Str) :
    (Pipeline.init input).measure = 3 * (scanTokens input).length + 3 + networkConns := by
  have hw : ∀ n : Nat, ((List.replicate n Worker.waiting).map Worker.weight).sum = n := by
    intro n
    induction n with
    | zero => rfl
    | succ n ih =>
      simp only [List.replicate_succ, List.map_cons, List.sum_cons, Worker.weight, ih]
      omega
  simp only [Pipeline.measure, Pipeline.init, hw]
  simp only [Bool.false_eq_true, if_false]

theorem workers_cases (ws : List Worker) :
    (∃ (i : Nat) (j : Str), ws[i]? = some (Worker.fetching j)) ∨
      (∃ (i : Nat) (r : refran), ws[i]? = some (Worker.sending r)) ∨
      (∃ i : Nat, ws[i]? = some Worker.waiting) ∨ (∀ w ∈ ws, w = Worker.exited) := by
  induction ws with
  | nil => exact Or.inr (Or.inr (Or.inr (fun w hw => absurd hw (List.not_mem_nil w))))
  | cons w ws ih =>
    cases w with
    | waiting => exact Or.inr (Or.inr (Or.inl ⟨0, by simp⟩))
    | fetching j => exact Or.inl ⟨0, j, by simp⟩
    | sending r => exact Or.inr (Or.inl ⟨0, r, by simp⟩)
    | exited =>
      rcases ih with ⟨i, j, h⟩ | ⟨i, r, h⟩ | ⟨i, h⟩ | h
      · exact Or.inl ⟨i + 1, j, by simpa using h⟩
      · exact Or.inr (Or.inl ⟨i + 1, r, by simpa using h⟩)
      · exact Or.inr (Or.inr (Or.inl ⟨i + 1, by simpa using h⟩))
      · refine Or.inr (Or.inr (Or.inr ?_))
        intro w hw
        rcases List.mem_cons.mp hw with rfl | hw
        · rfl
        · exact h w hw

/-- No deadlock: until `inSlugs` returns, some step is enabled. -/
theorem Pipeline.progress (f : Fetcher) {s : Pipeline} (hret : s.returned = false) :
    ∃ a t, Pipeline.step f s a = some t := by
  suffices hsome : ∃ a, (Pipeline.step f s a).isSome = true by
    obtain ⟨a, ha⟩ := hsome
    exact ⟨a, Option.isSome_iff_exists.mp ha⟩
  by_cases hp : s.headerPrinted = true
  swap
  · exact ⟨.header, by simp [Pipeline.step, hp]⟩
  have ho : s.outputClosed = false := by
    simpa [Pipeline.returned, hp] using hret
  rcases workers_cases s.workers with ⟨i, j, h⟩ | ⟨i, r, h⟩ | ⟨i, h⟩ | h
  · obtain ⟨r, hr⟩ := workerBody_isSome f j
    exact ⟨.work i, by simp [Pipeline.step, h, hr]⟩
  · exact ⟨.emit i, by simp [Pipeline.step, h, hp]⟩
  · cases hj : s.jobsClosed with
    | true => exact ⟨.exit i, by simp [Pipeline.step, h, hj]⟩
    | false =>
      cases hs : scanLine s.stdin with
      | some p => exact ⟨.feed i, by simp [Pipeline.step, h, hs, hj]⟩
      | none => exact ⟨.closeJobs, by simp [Pipeline.step, hs, hj]⟩
  · exact ⟨.closeOutput, by
      simp only [Pipeline.step]
      rw [if_pos ⟨h, ho⟩]
      rfl⟩

/-- From every state it reaches, `inSlugs` can run on until it returns. -/
theorem Pipeline.completes {f : Fetcher} {input : Str} :
    ∀ (n : Nat) (s : Pipeline), s.measure = n → Pipeline.Inv f input s →
      ∃ sched t, Pipeline.run f sched s = some t ∧ t.returned = true := by
  intro n
  induction n with
  | zero =>
    intro s hm hinv
    cases hret : s.returned with
    | true => exact ⟨[], s, rfl, hret⟩
    | false =>
      obtain ⟨a, t, hstep⟩ := Pipeline.progress f hret
      have := Pipeline.step_measure hstep
      omega
  | succ n ih =>
    intro s hm hinv
    cases hret : s.returned with
    | true => exact ⟨[], s, rfl, hret⟩
    | false =>
      obtain ⟨a, t, hstep⟩ := Pipeline.progress f hret
      have hmt : t.measure = n := by
        have := Pipeline.step_measure hstep
        omega
      obtain ⟨sched, u, hrun, hu⟩ := ih t hmt (Pipeline.step_inv hinv hstep)
      exact ⟨a :: sched, u, by simp [Pipeline.run, hstep, hrun], hu⟩

theorem owed_of_exited (f : Fetcher) :
    ∀ ws : List Worker, (∀ w ∈ ws, w = Worker.exited) → ws.flatMap (Worker.owed f) = [] := by
  intro ws
  induction ws with
  | nil => intro _; rfl
  | cons w ws ih =>
    intro h
    have hw : w = Worker.exited := h w (List.mem_cons_self _ _)
    subst hw
    simpa [Worker.owed] using ih (fun w hw => h w (List.mem_cons_of_mem _ hw))

/-- When `inSlugs` returns, the records received are the records of the
lines the scanner delivers, in some order, and the output is the writer's
output on them. -/
theorem Pipeline.returned_records {f : Fetcher} {input : Str} {t : Pipeline}
    (hinv : Pipeline.Inv f input t) (hret : t.returned = true) :
    (t.received.map some).Perm ((scanTokens input).map (workerBody f)) ∧
      t.stdout = inSlugsWriter t.received := by
  simp only [Pipeline.returned, Bool.and_eq_true] at hret
  obtain ⟨hp, ho⟩ := hret
  have hall := hinv.output_closed ho
  have hne : t.workers ≠ [] := by
    intro h
    have := hinv.workers_length
    rw [h] at this
    exact absurd this (by decide)
  obtain ⟨w, hw⟩ := List.exists_mem_of_ne_nil _ hne
  have hex : Worker.exited ∈ t.workers := hall w hw ▸ hw
  have hstdin := hinv.closed_stdin (hinv.exited_closed hex)
  have hrec := hinv.records
  rw [scanTokens_of_none hstdin, owed_of_exited f _ hall] at hrec
  refine ⟨by simpa using hrec, ?_⟩
  rw [hinv.written, if_pos hp]

/-- On every input and with every fetcher, each line the scanner delivers
gives one record (the error with three empty texts when the fetch fails, no
error and the three extracted texts when it succeeds), which depends on the
fetch of that slug only; `inSlugs` cannot get stuck and returns after a
bounded number of steps; and when it returns, the records emitted by the
workers are, up to order, the records of the lines the scanner delivered,
one per line. -/
theorem Pipeline.one_record_per_scanned_line (NewDocument : Fetcher) (input : Str) :
    (∀ j : Str,
      (∀ e, NewDocument (sprintfSlash baseURL j) = .error e →
        workerBody NewDocument j =
          some { idiom := [], usage := [], definition := [], err := some e }) ∧
      (∀ doc, NewDocument (sprintfSlash baseURL j) = .ok doc →
        workerBody NewDocument j =
          some { idiom := getSectionText doc.firstTabbertab sectionIdiom,
                 usage := usagePrefix (getSectionText doc.firstTabbertab sectionUsage),
                 definition := getSectionText doc.firstTabbertab sectionDefinition,
                 err := none }) ∧
      (∀ other : Fetcher,
        other (sprintfSlash baseURL j) = NewDocument (sprintfSlash baseURL j) →
        workerBody other j = workerBody NewDocument j)) ∧
    (∀ (sched : List PipeAction) (s : Pipeline),
      Pipeline.run NewDocument sched (Pipeline.init input) = some s →
      sched.length ≤ 3 * (scanTokens input).length + 3 + networkConns ∧
      ∃ sched' t, Pipeline.run NewDocument sched' s = some t ∧ t.returned = true) ∧
    (∀ (sched : List PipeAction) (t : Pipeline),
      Pipeline.run NewDocument sched (Pipeline.init input) = some t → t.returned = true →
      (t.received.map some).Perm ((scanTokens input).map (workerBody NewDocument)) ∧
      t.received.length = (scanTokens input).length ∧
      t.stdout = inSlugsWriter t.received) := by
  refine ⟨?_, ?_, ?_⟩
  · intro j
    refine ⟨fun e he => workerBody_error he, fun doc hdoc => workerBody_ok hdoc, ?_⟩
    intro other ho
    simp only [workerBody, ho]
  · intro sched s hrun
    have hm := Pipeline.run_measure sched hrun
    rw [Pipeline.init_measure] at hm
    exact ⟨by omega,
      Pipeline.completes s.measure s rfl
        (Pipeline.run_inv sched (Pipeline.init_inv NewDocument input) hrun)⟩
  · intro sched t hrun hret
    obtain ⟨hperm, hout⟩ := Pipeline.returned_records
      (Pipeline.run_inv sched (Pipeline.init_inv NewDocument input) hrun) hret
    refine ⟨hperm, ?_, hout⟩
    have := hperm.length_eq
    simpa using this

/-- When every input line is free of line breaks and shorter than
`maxScanTokenSize` bytes, `inSlugs` returns with one record per line. -/
theorem Pipeline.one_record_per_short_line (NewDocument : Fetcher) (slugs : List Str)
    (hslugs : ∀ l ∈ slugs,
      '\n' ∉ l ∧ l.getLast? ≠ some '\r' ∧ byteLen l < maxScanTokenSize)
    (sched : List PipeAction) (t : Pipeline)
    (hrun : Pipeline.run NewDocument sched (Pipeline.init (stdinOf slugs)) = some t)
    (hret : t.returned = true) :
    (t.received.map some).Perm (slugs.map (workerBody NewDocument)) ∧
      t.received.length = slugs.length := by
  have h := (Pipeline.one_record_per_scanned_line NewDocument (stdinOf slugs)).2.2
    sched t hrun hret
  rw [scanTokens_stdinOf slugs hslugs] at h
  exact ⟨h.1, h.2.1⟩

/-- Every assignment of a document or an error to the slugs is what some
fetcher gives at the detail URLs. -/
theorem fetcher_of_slug_function (g : Str → Except Str Document) :
    ∃ f : Fetcher, ∀ j, f (sprintfSlash baseURL j) = g j :=
  ⟨fun url => g (url.drop (baseURL.length + 1)), fun j => by
    have : (sprintfSlash baseURL j).drop (baseURL.length + 1) = j := by
      simp [sprintfSlash]
    simp only [this]⟩

/-- On three short lines of which the second cannot be fetched, a schedule
in which two workers overlap ends with the three records, the failed one
first. -/
theorem Pipeline.example_run :
    Pipeline.run exampleFetcher exampleSchedule (Pipeline.init (stdinOf exampleSlugs))
      = some exampleFinal ∧
    (exampleFinal.received.map some).Perm (exampleSlugs.map (workerBody exampleFetcher)) ∧
    exampleFinal.received.length = exampleSlugs.length :=
  ⟨by decide,
    Pipeline.one_record_per_short_line exampleFetcher exampleSlugs (by decide)
      exampleSchedule exampleFinal (by decide) (by decide)⟩

theorem stdinOf_longLineSlugs :
    stdinOf longLineSlugs = "ficha.aspx?Par=58001".toList ++ '\n' :: longLineRest := by
  simp only [longLineSlugs, stdinOf_cons, longLineRest]
  rfl

theorem scanLine_longLineRest : scanLine longLineRest = none := by
  unfold longLineRest
  refine scanLine_too_long _ ?_ ?_
  · intro h
    exact absurd (List.eq_of_mem_replicate h) (by decide)
  · rw [byteLen_replicate]
    decide

theorem scanLine_longLineSlugs :
    scanLine (stdinOf longLineSlugs) = some ("ficha.aspx?Par=58001".toList, longLineRest) := by
  rw [stdinOf_longLineSlugs, scanLine_line longLineRest (by decide) (by decide)]
  have : dropCR "ficha.aspx?Par=58001".toList = "ficha.aspx?Par=58001".toList := by decide
  rw [this]

theorem scanTokens_longLineSlugs :
    scanTokens (stdinOf longLineSlugs) = [ "ficha.aspx?Par=58001".toList ] := by
  rw [scanTokens_of_some scanLine_longLineSlugs, scanTokens_of_none scanLine_longLineRest]

/-- When the scanner delivers one line and then stops, one worker answers it
and everything is closed down. -/
theorem Pipeline.run_single_line (f : Fetcher) (input line rest : Str) (r : refran)
    (h1 : scanLine input = some (line, rest)) (hrest : scanLine rest = none)
    (h2 : workerBody f line = some r) :
    Pipeline.run f longLineSchedule (Pipeline.init input)
      = some { stdin := rest, jobsClosed := true,
               workers := List.replicate 10 Worker.exited, headerPrinted := true,
               received := [r], stdout := writeRecord [headerLine] r,
               outputClosed := true } := by
  simp [Pipeline.run, Pipeline.step, Pipeline.init, longLineSchedule, h1, h2, hrest,
    networkConns, List.replicate]

/-- C1, at an input the code mishandles: of three slugs on three lines, the
second 70000 bytes long, the scanner delivers the first only (`Scan`
returns false at the long line and `jobs` is closed), so `inSlugs` returns
with one record, not three, in this run and in every other. -/
theorem inSlugs_drops_lines_after_long_line :
    longLineSlugs.length = 3 ∧
    scanTokens (stdinOf longLineSlugs) = [ "ficha.aspx?Par=58001".toList ] ∧
    Pipeline.run exampleFetcher longLineSchedule (Pipeline.init (stdinOf longLineSlugs))
      = some longLineFinal ∧
    longLineFinal.returned = true ∧
    longLineFinal.received.length = 1 ∧
    (∀ (sched : List PipeAction) (t : Pipeline),
      Pipeline.run exampleFetcher sched (Pipeline.init (stdinOf longLineSlugs)) = some t →
      t.returned = true → t.received.length = 1) := by
  refine ⟨rfl, scanTokens_longLineSlugs, ?_, rfl, rfl, ?_⟩
  · rw [Pipeline.run_single_line exampleFetcher _ _ _
      { idiom := "A buen hambre no hay pan duro".toList,
        usage := "De uso actual ".toList,
        definition := "Cuando se tiene necesidad, no se repara en delicadezas.".toList }
      scanLine_longLineSlugs scanLine_longLineRest (by decide)]
    rfl
  · intro sched t hrun hret
    have h := ((Pipeline.one_record_per_scanned_line exampleFetcher
      (stdinOf longLineSlugs)).2.2 sched t hrun hret).2.1
    rw [h, scanTokens_longLineSlugs]
    rfl

/-- C1, at the failing input, on the run of `longLineSchedule`: it returns
with one record. -/
theorem inSlugs_drops_lines_after_long_line_witness :
    Pipeline.run exampleFetcher longLineSchedule (Pipeline.init (stdinOf longLineSlugs))
      = some longLineFinal ∧
    longLineFinal.returned = true ∧
    longLineFinal.received.length = 1 :=
  ⟨inSlugs_drops_lines_after_long_line.2.2.1, rfl,
    inSlugs_drops_lines_after_long_line.2.2.2.2.2 longLineSchedule longLineFinal
      inSlugs_drops_lines_after_long_line.2.2.1 rfl⟩

/-! ## The transition system of `outSlugs` -/

theorem Enumeration.step_not_fatal {f : Fetcher} {s t : Enumeration} {a : EnumAction}
    (h : Enumeration.step f s a = some t) : s.fatal = none := by
  unfold Enumeration.step at h
  split at h
  · cases h
  · rename_i hf
    cases hfat : s.fatal with
    | none => rfl
    | some e => simp [hfat] at hf

theorem Enumeration.step_fetch {f : Fetcher} {s t : Enumeration} {i : Nat}
    (h : Enumeration.step f s (.fetch i) = some t) :
    ∃ l l1 l2, s.crawlers = l1 ++ Crawler.launched l :: l2 ∧
      ((∃ e, f (sprintfChar alphaPageURL l) = .error e ∧
          t = { s with crawlers := l1 ++ Crawler.failed l :: l2,
                       requested := s.requested ++ [sprintfChar alphaPageURL l],
                       fatal := some e }) ∨
       (∃ doc, f (sprintfChar alphaPageURL l) = .ok doc ∧
          t = { s with crawlers := l1 ++ Crawler.visiting l doc.listaAz :: l2,
                       requested := s.requested ++ [sprintfChar alphaPageURL l] })) := by
  have hnf : s.fatal.isSome = false := by simp [Enumeration.step_not_fatal h]
  simp only [Enumeration.step, hnf, Bool.false_eq_true, if_false] at h
  split at h
  · rename_i l hw
    split at h
    · rename_i e he
      obtain ⟨l1, l2, h1, h2⟩ := set_split hw (Crawler.failed l)
      simp only [Option.some.injEq] at h
      exact ⟨l, l1, l2, h1, Or.inl ⟨e, he, by rw [← h, h2]⟩⟩
    · rename_i doc hd
      obtain ⟨l1, l2, h1, h2⟩ := set_split hw (Crawler.visiting l doc.listaAz)
      simp only [Option.some.injEq] at h
      exact ⟨l, l1, l2, h1, Or.inr ⟨doc, hd, by rw [← h, h2]⟩⟩
  · cases h

theorem Enumeration.step_visit {f : Fetcher} {s t : Enumeration} {i : Nat}
    (h : Enumeration.step f s (.visit i) = some t) :
    ∃ l anchor rest l1 l2, s.crawlers = l1 ++ Crawler.visiting l (anchor :: rest) :: l2 ∧
      ((anchor.href = none ∧
          t = { s with crawlers := l1 ++ Crawler.visiting l rest :: l2 }) ∨
       (∃ link, anchor.href = some link ∧
          t = { s with crawlers := l1 ++ Crawler.visiting l rest :: l2,
                       stdout := s.stdout ++ [println link] })) := by
  have hnf : s.fatal.isSome = false := by simp [Enumeration.step_not_fatal h]
  simp only [Enumeration.step, hnf, Bool.false_eq_true, if_false] at h
  split at h
  · rename_i l anchor rest hw
    obtain ⟨l1, l2, h1, h2⟩ := set_split hw (Crawler.visiting l rest)
    split at h
    · rename_i hh
      simp only [Option.some.injEq] at h
      exact ⟨l, anchor, rest, l1, l2, h1, Or.inl ⟨hh, by rw [← h, h2]⟩⟩
    · rename_i link hh
      simp only [Option.some.injEq] at h
      exact ⟨l, anchor, rest, l1, l2, h1, Or.inr ⟨link, hh, by rw [← h, h2]⟩⟩
  · cases h

theorem Enumeration.step_finish {f : Fetcher} {s t : Enumeration} {i : Nat}
    (h : Enumeration.step f s (.finish i) = some t) :
    ∃ l l1 l2, s.crawlers = l1 ++ Crawler.visiting l [] :: l2 ∧
      t = { s with crawlers := l1 ++ Crawler.finished l :: l2 } := by
  have hnf : s.fatal.isSome = false := by simp [Enumeration.step_not_fatal h]
  simp only [Enumeration.step, hnf, Bool.false_eq_true, if_false] at h
  split at h
  · rename_i l hw
    obtain ⟨l1, l2, h1, h2⟩ := set_split hw (Crawler.finished l)
    simp only [Option.some.injEq] at h
    exact ⟨l, l1, l2, h1, by rw [← h, h2]⟩
  · cases h

theorem Enumeration.step_close {f : Fetcher} {s t : Enumeration}
    (h : Enumeration.step f s .close = some t) :
    (∀ c ∈ s.crawlers, c = Crawler.finished c.letter) ∧ s.slugsClosed = false ∧
      t = { s with slugsClosed := true } := by
  have hnf : s.fatal.isSome = false := by simp [Enumeration.step_not_fatal h]
  simp only [Enumeration.step, hnf, Bool.false_eq_true, if_false] at h
  split at h
  · rename_i hp
    simp only [Option.some.injEq] at h
    exact ⟨hp.1, hp.2, h.symm⟩
  · cases h

theorem eachAnchor_eq_filterMap (anchors : List Anchor) :
    eachAnchor anchors = anchors.filterMap Anchor.href := by
  induction anchors with
  | nil => rfl
  | cons a rest ih =>
    cases h : a.href with
    | none => simp [eachAnchor, h, ih, List.filterMap_cons]
    | some link => simp [eachAnchor, h, ih, List.filterMap_cons]

theorem anchorLines_cons_none {a : Anchor} {rest : List Anchor} (h : a.href = none) :
    anchorLines (a :: rest) = anchorLines rest := by
  simp [anchorLines, eachAnchor, h]

theorem anchorLines_cons_some {a : Anchor} {rest : List Anchor} {link : Str}
    (h : a.href = some link) :
    anchorLines (a :: rest) = println link :: anchorLines rest := by
  simp [anchorLines, eachAnchor, h]

theorem mem_replace {α : Type} {l1 l2 : List α} (a : α) {b c : α}
    (h : c ∈ l1 ++ b :: l2) : c = b ∨ c ∈ l1 ++ a :: l2 := by
  simp only [List.mem_append, List.mem_cons] at h ⊢
  rcases h with h | h | h
  · exact Or.inr (Or.inl h)
  · exact Or.inl h
  · exact Or.inr (Or.inr (Or.inr h))

theorem Enumeration.start_inv (f : Fetcher) : Enumeration.Inv f Enumeration.init where
  letters_kept := by
    simp only [Enumeration.init, List.map_map]
    exact List.map_id'' (fun _ => rfl) letters
  failed_fatal := by
    intro c hc hfail
    simp only [Enumeration.init, List.mem_map] at hc
    obtain ⟨l, _, rfl⟩ := hc
    cases hfail
  fatal_failed := by
    intro h
    simp [Enumeration.init] at h
  closed_finished := by
    intro h
    simp [Enumeration.init] at h
  urls := by
    have : ∀ ls : List Char,
        (ls.map Crawler.launched).flatMap Crawler.pendingURL
          = ls.map (sprintfChar alphaPageURL) := by
      intro ls
      induction ls with
      | nil => rfl
      | cons l ls ih => simp [Crawler.pendingURL, ih]
    simp only [Enumeration.init, List.nil_append, this, listingURLs]
    exact List.Perm.refl _
  lines := by
    have : ∀ ls : List Char,
        (ls.map Crawler.launched).flatMap (Crawler.pendingLines f)
          = ls.flatMap (fun l => anchorLines (listingAnchors f l)) := by
      intro ls
      induction ls with
      | nil => rfl
      | cons l ls ih => simp [Crawler.pendingLines, ih]
    simp only [Enumeration.init, List.nil_append, this]
    exact List.Perm.refl _
  ordered := by
    intro c hc
    simp only [Enumeration.init, List.mem_map] at hc
    obtain ⟨l, _, rfl⟩ := hc
    exact ⟨[], List.nil_sublist _, fun _ => rfl⟩

theorem Enumeration.step_keeps_inv {f : Fetcher} {s t : Enumeration} {a : EnumAction}
    (hinv : Enumeration.Inv f s) (h : Enumeration.step f s a = some t) :
    Enumeration.Inv f t := by
  have hnf := Enumeration.step_not_fatal h
  obtain ⟨hlk, hff, hfat, hcf, hurl, hlin, hord⟩ := hinv
  cases a with
  | fetch i =>
    obtain ⟨l, l1, l2, hw, hcase⟩ := Enumeration.step_fetch h
    have hnc : s.slugsClosed = true → False := by
      intro hc
      have := hcf hc (Crawler.launched l) (by rw [hw]; simp)
      cases this
    have hurl' : (s.requested ++ [sprintfChar alphaPageURL l] ++
        (l1.flatMap Crawler.pendingURL ++ l2.flatMap Crawler.pendingURL)).Perm listingURLs := by
      refine List.Perm.trans ?_ hurl
      rw [hw]
      simp only [List.flatMap_append, List.flatMap_cons, Crawler.pendingURL]
      rw [List.perm_iff_count]
      intro x
      simp only [List.count_append, List.count_cons, List.count_nil]
      omega
    rcases hcase with ⟨e, he, rfl⟩ | ⟨doc, hd, rfl⟩
    · refine ⟨?_, ?_, ?_, ?_, ?_, ?_, ?_⟩
      · simpa [hw, Crawler.letter] using hlk
      · intro c _ _
        rfl
      · intro _
        exact ⟨Crawler.failed l, by simp, rfl⟩
      · intro hc
        exact absurd hc (by simpa using hnc)
      · simpa [List.flatMap_append, List.flatMap_cons, Crawler.pendingURL] using hurl'
      · refine List.Perm.trans ?_ hlin
        rw [hw]
        simp only [List.flatMap_append, List.flatMap_cons, Crawler.pendingLines,
          listingAnchors, he, anchorLines, eachAnchor, List.map_nil]
        exact List.Perm.refl _
      · intro c _
        exact ⟨[], List.nil_sublist _, fun hn => by cases hn⟩
    · refine ⟨?_, ?_, ?_, ?_, ?_, ?_, ?_⟩
      · simpa [hw, Crawler.letter] using hlk
      · intro c hc hfail
        rcases mem_replace (Crawler.launched l) hc with rfl | hc'
        · cases hfail
        · exact hff c (hw ▸ hc') hfail
      · intro hsome
        simp [hnf] at hsome
      · intro hc
        exact absurd hc (by simpa using hnc)
      · simpa [List.flatMap_append, List.flatMap_cons, Crawler.pendingURL] using hurl'
      · refine List.Perm.trans ?_ hlin
        rw [hw]
        simp only [List.flatMap_append, List.flatMap_cons, Crawler.pendingLines,
          listingAnchors, hd]
        exact List.Perm.refl _
      · intro c hc
        rcases mem_replace (Crawler.launched l) hc with rfl | hc'
        · obtain ⟨sent, hsub, hsent⟩ := hord (Crawler.launched l) (by rw [hw]; simp)
          refine ⟨sent, hsub, fun hn => ?_⟩
          have := hsent hn
          simpa [Crawler.pendingLines, Crawler.letter, listingAnchors, hd] using this
        · exact hord c (hw ▸ hc')
  | visit i =>
    obtain ⟨l, anchor, rest, l1, l2, hw, hcase⟩ := Enumeration.step_visit h
    have hnc : s.slugsClosed = true → False := by
      intro hc
      have := hcf hc (Crawler.visiting l (anchor :: rest)) (by rw [hw]; simp)
      cases this
    have hurl' : (s.requested ++
        (l1 ++ Crawler.visiting l rest :: l2).flatMap Crawler.pendingURL).Perm listingURLs := by
      refine List.Perm.trans ?_ hurl
      rw [hw]
      simp only [List.flatMap_append, List.flatMap_cons, Crawler.pendingURL]
      exact List.Perm.refl _
    have hff' : ∀ c ∈ l1 ++ Crawler.visiting l rest :: l2,
        c = Crawler.failed c.letter → s.fatal.isSome = true := by
      intro c hc hfail
      rcases mem_replace (Crawler.visiting l (anchor :: rest)) hc with rfl | hc'
      · cases hfail
      · exact hff c (hw ▸ hc') hfail
    have hfat' : s.fatal.isSome = true →
        ∃ c ∈ l1 ++ Crawler.visiting l rest :: l2, c = Crawler.failed c.letter := by
      intro hsome
      simp [hnf] at hsome
    have hlk' : (l1 ++ Crawler.visiting l rest :: l2).map Crawler.letter = letters := by
      simpa [hw, Crawler.letter] using hlk
    rcases hcase with ⟨hh, rfl⟩ | ⟨link, hh, rfl⟩
    · refine ⟨hlk', hff', hfat', fun hc => absurd hc (by simpa using hnc), hurl', ?_, ?_⟩
      · refine List.Perm.trans ?_ hlin
        rw [hw]
        simp only [List.flatMap_append, List.flatMap_cons, Crawler.pendingLines,
          anchorLines_cons_none hh]
        exact List.Perm.refl _
      · intro c hc
        rcases mem_replace (Crawler.visiting l (anchor :: rest)) hc with rfl | hc'
        · obtain ⟨sent, hsub, hsent⟩ :=
            hord (Crawler.visiting l (anchor :: rest)) (by rw [hw]; simp)
          refine ⟨sent, hsub, fun hn => ?_⟩
          have := hsent hn
          simpa [Crawler.pendingLines, Crawler.letter, anchorLines_cons_none hh] using this
        · exact hord c (hw ▸ hc')
    · refine ⟨hlk', hff', hfat', fun hc => absurd hc (by simpa using hnc), hurl', ?_, ?_⟩
      · refine List.Perm.trans ?_ hlin
        rw [hw]
        simp only [List.flatMap_append, List.flatMap_cons, Crawler.pendingLines,
          anchorLines_cons_some hh]
        rw [List.perm_iff_count]
        intro x
        simp only [List.count_append, List.count_cons, List.count_nil]
        omega
      · intro c hc
        rcases mem_replace (Crawler.visiting l (anchor :: rest)) hc with rfl | hc'
        · obtain ⟨sent, hsub, hsent⟩ :=
            hord (Crawler.visiting l (anchor :: rest)) (by rw [hw]; simp)
          refine ⟨sent ++ [println link], hsub.append (List.Sublist.refl _), fun hn => ?_⟩
          have := hsent hn
          simpa [Crawler.pendingLines, Crawler.letter, anchorLines_cons_some hh] using this
        · obtain ⟨sent, hsub, hsent⟩ := hord c (hw ▸ hc')
          exact ⟨sent, hsub.trans (List.sublist_append_left _ _), hsent⟩
  | finish i =>
    obtain ⟨l, l1, l2, hw, rfl⟩ := Enumeration.step_finish h
    refine ⟨?_, ?_, ?_, ?_, ?_, ?_, ?_⟩
    · simpa [hw, Crawler.letter] using hlk
    · intro c hc hfail
      rcases mem_replace (Crawler.visiting l []) hc with rfl | hc'
      · cases hfail
      · exact hff c (hw ▸ hc') hfail
    · intro hsome
      simp [hnf] at hsome
    · intro hc
      have := hcf hc (Crawler.visiting l []) (by rw [hw]; simp)
      cases this
    · refine List.Perm.trans ?_ hurl
      rw [hw]
      simp only [List.flatMap_append, List.flatMap_cons, Crawler.pendingURL]
      exact List.Perm.refl _
    · refine List.Perm.trans ?_ hlin
      rw [hw]
      simp only [List.flatMap_append, List.flatMap_cons, Crawler.pendingLines, anchorLines,
        eachAnchor, List.map_nil]
      exact List.Perm.refl _
    · intro c hc
      rcases mem_replace (Crawler.visiting l []) hc with rfl | hc'
      · obtain ⟨sent, hsub, hsent⟩ := hord (Crawler.visiting l []) (by rw [hw]; simp)
        refine ⟨sent, hsub, fun hn => ?_⟩
        have := hsent hn
        simpa [Crawler.pendingLines, Crawler.letter, anchorLines, eachAnchor] using this
      · exact hord c (hw ▸ hc')
  | close =>
    obtain ⟨hall, hc, rfl⟩ := Enumeration.step_close h
    exact ⟨hlk, hff, hfat, fun _ => hall, hurl, hlin, hord⟩

theorem Enumeration.run_keeps_inv {f : Fetcher} :
    ∀ (sched : List EnumAction) {s t : Enumeration},
      Enumeration.Inv f s → Enumeration.run f sched s = some t → Enumeration.Inv f t := by
  intro sched
  induction sched with
  | nil =>
    intro s t hinv h
    simp only [Enumeration.run, Option.some.injEq] at h
    exact h ▸ hinv
  | cons a rest ih =>
    intro s t hinv h
    simp only [Enumeration.run] at h
    split at h
    · rename_i u hu
      exact ih (Enumeration.step_keeps_inv hinv hu) h
    · cases h

theorem Enumeration.step_decreases {f : Fetcher} {s t : Enumeration} {a : EnumAction}
    (h : Enumeration.step f s a = some t) : t.measure f < s.measure f := by
  have hnf : s.fatal.isSome = false := by simp [Enumeration.step_not_fatal h]
  cases a with
  | fetch i =>
    obtain ⟨l, l1, l2, hw, hcase⟩ := Enumeration.step_fetch h
    rcases hcase with ⟨e, he, rfl⟩ | ⟨doc, hd, rfl⟩
    · simp only [Enumeration.measure, hnf, Option.isSome_some, if_true, Bool.false_eq_true,
        if_false]
      omega
    · simp only [Enumeration.measure, hnf, hw, List.map_append, List.map_cons, List.sum_append,
        List.sum_cons, Crawler.weight, hd, Bool.false_eq_true, if_false]
      omega
  | visit i =>
    obtain ⟨l, anchor, rest, l1, l2, hw, hcase⟩ := Enumeration.step_visit h
    rcases hcase with ⟨hh, rfl⟩ | ⟨link, hh, rfl⟩
    · simp only [Enumeration.measure, hnf, hw, List.map_append, List.map_cons, List.sum_append,
        List.sum_cons, Crawler.weight, List.length_cons, Bool.false_eq_true, if_false]
      omega
    · simp only [Enumeration.measure, hnf, hw, List.map_append, List.map_cons, List.sum_append,
        List.sum_cons, Crawler.weight, List.length_cons, Bool.false_eq_true, if_false]
      omega
  | finish i =>
    obtain ⟨l, l1, l2, hw, rfl⟩ := Enumeration.step_finish h
    simp only [Enumeration.measure, hnf, hw, List.map_append, List.map_cons, List.sum_append,
      List.sum_cons, Crawler.weight, List.length_nil, Bool.false_eq_true, if_false]
    omega
  | close =>
    obtain ⟨hall, hc, rfl⟩ := Enumeration.step_close h
    simp only [Enumeration.measure, hnf, hc, Bool.false_eq_true, if_false, if_true]
    omega

theorem Enumeration.run_bounded {f : Fetcher} :
    ∀ (sched : List EnumAction) {s t : Enumeration},
      Enumeration.run f sched s = some t → t.measure f + sched.length ≤ s.measure f := by
  intro sched
  induction sched with
  | nil =>
    intro s t h
    simp only [Enumeration.run, Option.some.injEq] at h
    simp [h]
  | cons a rest ih =>
    intro s t h
    simp only [Enumeration.run] at h
    split at h
    · rename_i u hu
      have h1 := ih h
      have h2 := Enumeration.step_decreases hu
      simp only [List.length_cons]
      omega
    · cases h

theorem crawlers_cases (ws : List Crawler) :
    (∃ (i : Nat) (l : Char), ws[i]? = some (Crawler.launched l)) ∨
      (∃ (i : Nat) (l : Char) (a : Anchor) (rest : List Anchor),
        ws[i]? = some (Crawler.visiting l (a :: rest))) ∨
      (∃ (i : Nat) (l : Char), ws[i]? = some (Crawler.visiting l [])) ∨
      (∃ c ∈ ws, c = Crawler.failed c.letter) ∨
      (∀ c ∈ ws, c = Crawler.finished c.letter) := by
  induction ws with
  | nil =>
    exact Or.inr (Or.inr (Or.inr (Or.inr (fun c hc => absurd hc (List.not_mem_nil c)))))
  | cons w ws ih =>
    cases w with
    | launched l => exact Or.inl ⟨0, l, by simp⟩
    | visiting l rest =>
      cases rest with
      | nil => exact Or.inr (Or.inr (Or.inl ⟨0, l, by simp⟩))
      | cons a rest => exact Or.inr (Or.inl ⟨0, l, a, rest, by simp⟩)
    | failed l => exact Or.inr (Or.inr (Or.inr (Or.inl ⟨_, List.mem_cons_self _ _, rfl⟩)))
    | finished l =>
      rcases ih with ⟨i, l', h⟩ | ⟨i, l', a, rest, h⟩ | ⟨i, l', h⟩ | ⟨c, hc, h⟩ | h
      · exact Or.inl ⟨i + 1, l', by simpa using h⟩
      · exact Or.inr (Or.inl ⟨i + 1, l', a, rest, by simpa using h⟩)
      · exact Or.inr (Or.inr (Or.inl ⟨i + 1, l', by simpa using h⟩))
      · exact Or.inr (Or.inr (Or.inr (Or.inl ⟨c, List.mem_cons_of_mem _ hc, h⟩)))
      · refine Or.inr (Or.inr (Or.inr (Or.inr ?_)))
        intro c hc
        rcases List.mem_cons.mp hc with rfl | hc
        · rfl
        · exact h c hc

/-- No deadlock: until `outSlugs` returns or the process is ended by
`log.Fatal`, some step is enabled. -/
theorem Enumeration.not_stuck {f : Fetcher} {s : Enumeration} (hinv : Enumeration.Inv f s)
    (hfat : s.fatal = none) (hret : s.returned = false) :
    ∃ a t, Enumeration.step f s a = some t := by
  suffices hsome : ∃ a, (Enumeration.step f s a).isSome = true by
    obtain ⟨a, ha⟩ := hsome
    exact ⟨a, Option.isSome_iff_exists.mp ha⟩
  have hnf : s.fatal.isSome = false := by simp [hfat]
  rcases crawlers_cases s.crawlers with
    ⟨i, l, h⟩ | ⟨i, l, a, rest, h⟩ | ⟨i, l, h⟩ | ⟨c, hc, h⟩ | h
  · refine ⟨.fetch i, ?_⟩
    cases hd : f (sprintfChar alphaPageURL l) <;> simp [Enumeration.step, hnf, h, hd]
  · refine ⟨.visit i, ?_⟩
    cases hh : a.href <;> simp [Enumeration.step, hnf, h, hh]
  · exact ⟨.finish i, by simp [Enumeration.step, hnf, h]⟩
  · have := hinv.failed_fatal c hc h
    rw [hnf] at this
    cases this
  · refine ⟨.close, ?_⟩
    have hc : s.slugsClosed = false := hret
    simp only [Enumeration.step, hnf, Bool.false_eq_true, if_false]
    rw [if_pos ⟨h, hc⟩]
    rfl

/-- From every state it reaches, `outSlugs` can run on until it returns or
the process is ended by `log.Fatal`. -/
theorem Enumeration.terminates {f : Fetcher} :
    ∀ (n : Nat) (s : Enumeration), s.measure f = n → Enumeration.Inv f s →
      ∃ sched t, Enumeration.run f sched s = some t ∧
        (t.returned = true ∨ t.fatal.isSome = true) := by
  intro n
  induction n using Nat.strong_induction_on with
  | _ n ih =>
    intro s hm hinv
    cases hret : s.returned with
    | true => exact ⟨[], s, rfl, Or.inl hret⟩
    | false =>
      cases hfat : s.fatal with
      | some e => exact ⟨[], s, rfl, Or.inr (by simp [hfat])⟩
      | none =>
        obtain ⟨a, t, hstep⟩ := Enumeration.not_stuck hinv hfat hret
        have hlt := Enumeration.step_decreases hstep
        obtain ⟨sched, u, hrun, hu⟩ :=
          ih (t.measure f) (hm ▸ hlt) t rfl (Enumeration.step_keeps_inv hinv hstep)
        exact ⟨a :: sched, u, by simp [Enumeration.run, hstep, hrun], hu⟩

/-- When every listing page can be fetched, `log.Fatal` is never reached. -/
theorem Enumeration.step_no_fatal {f : Fetcher} {s t : Enumeration} {a : EnumAction}
    (hok : ∀ l ∈ letters, ∃ doc, f (sprintfChar alphaPageURL l) = .ok doc)
    (hinv : Enumeration.Inv f s) (h : Enumeration.step f s a = some t) : t.fatal = none := by
  have hnf := Enumeration.step_not_fatal h
  cases a with
  | fetch i =>
    obtain ⟨l, l1, l2, hw, hcase⟩ := Enumeration.step_fetch h
    rcases hcase with ⟨e, he, rfl⟩ | ⟨doc, hd, rfl⟩
    · have hl : l ∈ letters := by
        rw [← hinv.letters_kept, hw]
        simp [Crawler.letter]
      obtain ⟨doc, hd⟩ := hok l hl
      rw [hd] at he
      cases he
    · exact hnf
  | visit i =>
    obtain ⟨l, anchor, rest, l1, l2, hw, hcase⟩ := Enumeration.step_visit h
    rcases hcase with ⟨hh, rfl⟩ | ⟨link, hh, rfl⟩ <;> exact hnf
  | finish i =>
    obtain ⟨l, l1, l2, hw, rfl⟩ := Enumeration.step_finish h
    exact hnf
  | close =>
    obtain ⟨hall, hc, rfl⟩ := Enumeration.step_close h
    exact hnf

theorem Enumeration.run_no_fatal {f : Fetcher}
    (hok : ∀ l ∈ letters, ∃ doc, f (sprintfChar alphaPageURL l) = .ok doc) :
    ∀ (sched : List EnumAction) {s t : Enumeration},
      Enumeration.Inv f s → s.fatal = none → Enumeration.run f sched s = some t →
      t.fatal = none := by
  intro sched
  induction sched with
  | nil =>
    intro s t _ hfat h
    simp only [Enumeration.run, Option.some.injEq] at h
    exact h ▸ hfat
  | cons a rest ih =>
    intro s t hinv _ h
    simp only [Enumeration.run] at h
    split at h
    · rename_i u hu
      exact ih (Enumeration.step_keeps_inv hinv hu) (Enumeration.step_no_fatal hok hinv hu) h
    · cases h

theorem pending_of_finished (f : Fetcher) :
    ∀ ws : List Crawler, (∀ c ∈ ws, c = Crawler.finished c.letter) →
      ws.flatMap Crawler.pendingURL = [] ∧ ws.flatMap (Crawler.pendingLines f) = [] := by
  intro ws
  induction ws with
  | nil => intro _; exact ⟨rfl, rfl⟩
  | cons w ws ih =>
    intro h
    have hw := h w (List.mem_cons_self _ _)
    obtain ⟨h1, h2⟩ := ih (fun c hc => h c (List.mem_cons_of_mem _ hc))
    rw [hw]
    simp [Crawler.pendingURL, Crawler.pendingLines, h1, h2]

/-- When `outSlugs` returns, every listing URL has been requested once and
the lines printed are those of the listing pages, the lines of each page
in their order. -/
theorem Enumeration.returned_facts {f : Fetcher} {t : Enumeration}
    (hinv : Enumeration.Inv f t) (hret : t.returned = true) :
    t.requested.Perm listingURLs ∧
      t.stdout.Perm (letters.flatMap (fun l => anchorLines (listingAnchors f l))) ∧
      (∀ l ∈ letters, (anchorLines (listingAnchors f l)).Sublist t.stdout) ∧
      t.fatal = none := by
  have hall := hinv.closed_finished hret
  obtain ⟨h1, h2⟩ := pending_of_finished f _ hall
  have hfat : t.fatal = none := by
    cases hf : t.fatal with
    | none => rfl
    | some e =>
      obtain ⟨c, hc, hfail⟩ := hinv.fatal_failed (by simp [hf])
      have := hall c hc
      rw [hfail] at this
      cases this
  refine ⟨?_, ?_, ?_, hfat⟩
  · simpa [h1] using hinv.urls
  · simpa [h2] using hinv.lines
  · intro l hl
    rw [← hinv.letters_kept] at hl
    obtain ⟨c, hc, rfl⟩ := List.mem_map.mp hl
    obtain ⟨sent, hsub, hsent⟩ := hinv.ordered c hc
    have hfin := hall c hc
    have := hsent hfat
    rw [hfin] at this
    simp only [Crawler.pendingLines, List.append_nil] at this
    have hlet : (Crawler.finished c.letter).letter = c.letter := rfl
    rw [hlet] at this
    rw [← this]
    exact hsub

theorem letters_nodup : letters.Nodup := by decide

theorem listingURLs_nodup : listingURLs.Nodup := by
  unfold listingURLs
  refine List.Nodup.map ?_ letters_nodup
  intro a b hab
  simp only [sprintfChar] at hab
  have := List.append_cancel_left hab
  simpa using this

/-- C8, as stated, fails: when the page of `A` cannot be fetched, the run
that fetches it first ends in `log.Fatal` with this one page requested, no
step is left, and the 22 other pages are never requested. -/
theorem outSlugs_stops_requesting_at_failed_fetch :
    Enumeration.run failingListings [ .fetch 0 ] Enumeration.init = some failedEnumState ∧
    failedEnumState.requested = [ sprintfChar alphaPageURL 'A' ] ∧
    failedEnumState.fatal.isSome = true ∧
    (∀ a : EnumAction, Enumeration.step failingListings failedEnumState a = none) ∧
    listingURLs.length = 23 ∧
    ¬ failedEnumState.requested.Perm listingURLs :=
  ⟨by decide, rfl, rfl, fun a => by simp [Enumeration.step, failedEnumState], by decide,
    fun h => absurd h.length_eq (by decide)⟩

/-- C8, amended: `letters` has 23 symbols, pairwise distinct and strictly
ascending, and is the alphabet `A` to `Z` without `K`, `W` and `X`; the
listing URLs are the 23 pairwise distinct URLs made of the template and one
symbol; `outSlugs` requests at most one page per symbol: in no run is a URL
requested twice or a URL outside these requested; when `outSlugs` returns
exactly these 23 have been requested; after `log.Fatal` nothing more is
requested; and when the fetch of every letter succeeds, every run can be
continued until `outSlugs` returns with all 23 requested. -/
theorem letters_and_listing_requests (NewDocument : Fetcher) :
    letters.length = 23 ∧ letters.Nodup ∧ letters.Pairwise (fun a b => a < b) ∧
    letters = "ABCDEFGHIJKLMNOPQRSTUVWXYZ".toList.filter
      (fun c => c != 'K' && c != 'W' && c != 'X') ∧
    listingURLs = letters.map (fun c => alphaPageURL ++ [c]) ∧
    listingURLs.length = 23 ∧ listingURLs.Nodup ∧
    (∀ (sched : List EnumAction) (t : Enumeration),
      Enumeration.run NewDocument sched Enumeration.init = some t →
      t.requested.Subperm listingURLs ∧ t.requested.Nodup ∧
      (t.returned = true → t.requested.Perm listingURLs) ∧
      (t.fatal.isSome = true → ∀ a : EnumAction, Enumeration.step NewDocument t a = none)) ∧
    ((∀ l ∈ letters, ∃ doc, NewDocument (sprintfChar alphaPageURL l) = .ok doc) →
      ∀ (sched : List EnumAction) (s : Enumeration),
        Enumeration.run NewDocument sched Enumeration.init = some s →
        s.fatal = none ∧
        ∃ sched' t, Enumeration.run NewDocument sched' s = some t ∧ t.returned = true ∧
          t.requested.Perm listingURLs) := by
  refine ⟨by decide, letters_nodup, by decide, by decide, rfl, by decide, listingURLs_nodup,
    ?_, ?_⟩
  · intro sched t hrun
    have hinv := Enumeration.run_keeps_inv sched (Enumeration.start_inv NewDocument) hrun
    have hsub : t.requested.Subperm listingURLs :=
      (List.sublist_append_left _ _).subperm.trans hinv.urls.subperm
    have hnd : t.requested.Nodup := by
      obtain ⟨l, hp, hs⟩ := hsub
      exact hp.nodup_iff.mp (List.Nodup.sublist hs listingURLs_nodup)
    refine ⟨hsub, hnd, fun hret => (Enumeration.returned_facts hinv hret).1, ?_⟩
    intro hfat a
    simp only [Enumeration.step, hfat, if_true]
  · intro hok sched s hrun
    have hinv := Enumeration.run_keeps_inv sched (Enumeration.start_inv NewDocument) hrun
    have hfat := Enumeration.run_no_fatal hok sched (Enumeration.start_inv NewDocument) rfl hrun
    refine ⟨hfat, ?_⟩
    obtain ⟨sched', t, hrun', hterm⟩ :=
      Enumeration.terminates (s.measure NewDocument) s rfl hinv
    have hret : t.returned = true := by
      rcases hterm with hret | hf
      · exact hret
      · have := Enumeration.run_no_fatal hok sched' hinv hfat hrun'
        rw [this] at hf
        cases hf
    exact ⟨sched', t, hrun', hret,
      (Enumeration.returned_facts (Enumeration.run_keeps_inv sched' hinv hrun') hret).1⟩

/-- C8, amended, on a run in which the page of `B` is requested before that
of `A` and every fetch succeeds. -/
theorem letters_and_listing_requests_witness :
    Enumeration.run exampleListings exampleEnumSchedule Enumeration.init
      = some exampleEnumFinal ∧
    exampleEnumFinal.requested.Subperm listingURLs ∧ exampleEnumFinal.requested.Nodup ∧
    exampleEnumFinal.requested.Perm listingURLs ∧
    exampleEnumFinal.requested ≠ listingURLs ∧
    (exampleEnumFinal.fatal = none ∧
      ∃ sched' t, Enumeration.run exampleListings sched' exampleEnumFinal = some t ∧
        t.returned = true ∧ t.requested.Perm listingURLs) :=
  ⟨by decide,
    ((letters_and_listing_requests exampleListings).2.2.2.2.2.2.2.1 exampleEnumSchedule
      exampleEnumFinal (by decide)).1,
    ((letters_and_listing_requests exampleListings).2.2.2.2.2.2.2.1 exampleEnumSchedule
      exampleEnumFinal (by decide)).2.1,
    ((letters_and_listing_requests exampleListings).2.2.2.2.2.2.2.1 exampleEnumSchedule
      exampleEnumFinal (by decide)).2.2.1 (by decide),
    by decide,
    (letters_and_listing_requests exampleListings).2.2.2.2.2.2.2.2
      (fun l _ => by unfold exampleListings; split_ifs <;> exact ⟨_, rfl⟩)
      exampleEnumSchedule exampleEnumFinal (by decide)⟩

theorem anchorLines_length (anchors : List Anchor) :
    (anchorLines anchors).length = anchors.countP (fun a => a.href.isSome) := by
  induction anchors with
  | nil => rfl
  | cons a rest ih =>
    cases h : a.href with
    | none => rw [anchorLines_cons_none h, ih, List.countP_cons]; simp [h]
    | some link =>
      rw [anchorLines_cons_some h, List.length_cons, ih, List.countP_cons]
      simp [h]

theorem length_flatMap_anchorLines (f : Fetcher) (ls : List Char) :
    (ls.flatMap (fun l => anchorLines (listingAnchors f l))).length
      = (ls.map (fun l => (listingAnchors f l).countP (fun a => a.href.isSome))).sum := by
  induction ls with
  | nil => rfl
  | cons l ls ih =>
    simp only [List.flatMap_cons, List.length_append, List.map_cons, List.sum_cons, ih,
      anchorLines_length]

/-- C9: the callback of `outSlugs` emits, for a listing page, the `href`
values of the anchors that have one, in document order, each once and
unchanged (an empty `href` too), and nothing for an anchor without `href`;
when the fetch of every letter succeeds `outSlugs` never reaches
`log.Fatal` and can always run on until it returns, and when it returns
the lines printed are the slugs of the 23 pages, those of each page in
their order, so their number is the number of anchors with an `href`. -/
theorem outSlugs_prints_every_href (NewDocument : Fetcher)
    (hok : ∀ l ∈ letters, ∃ doc, NewDocument (sprintfChar alphaPageURL l) = .ok doc) :
    (∀ anchors : List Anchor, eachAnchor anchors = anchors.filterMap Anchor.href) ∧
    (∀ l ∈ letters, ∃ doc, NewDocument (sprintfChar alphaPageURL l) = .ok doc ∧
      listingAnchors NewDocument l = doc.listaAz) ∧
    (∀ (sched : List EnumAction) (s : Enumeration),
      Enumeration.run NewDocument sched Enumeration.init = some s →
      s.fatal = none ∧
      ∃ sched' t, Enumeration.run NewDocument sched' s = some t ∧ t.returned = true) ∧
    (∀ (sched : List EnumAction) (t : Enumeration),
      Enumeration.run NewDocument sched Enumeration.init = some t → t.returned = true →
      t.stdout.Perm (letters.flatMap (fun l =>
        ((listingAnchors NewDocument l).filterMap Anchor.href).map println)) ∧
      (∀ l ∈ letters,
        (((listingAnchors NewDocument l).filterMap Anchor.href).map println).Sublist
          t.stdout) ∧
      t.stdout.length =
        (letters.map (fun l =>
          (listingAnchors NewDocument l).countP (fun a => a.href.isSome))).sum) := by
  refine ⟨eachAnchor_eq_filterMap, ?_, ?_, ?_⟩
  · intro l hl
    obtain ⟨doc, hd⟩ := hok l hl
    exact ⟨doc, hd, by simp [listingAnchors, hd]⟩
  · intro sched s hrun
    have hinv := Enumeration.run_keeps_inv sched (Enumeration.start_inv NewDocument) hrun
    have hfat := Enumeration.run_no_fatal hok sched (Enumeration.start_inv NewDocument) rfl hrun
    refine ⟨hfat, ?_⟩
    obtain ⟨sched', t, hrun', hterm⟩ := Enumeration.terminates (s.measure NewDocument) s rfl hinv
    refine ⟨sched', t, hrun', ?_⟩
    rcases hterm with hret | hf
    · exact hret
    · have := Enumeration.run_no_fatal hok sched' hinv hfat hrun'
      rw [this] at hf
      cases hf
  · intro sched t hrun hret
    have hinv := Enumeration.run_keeps_inv sched (Enumeration.start_inv NewDocument) hrun
    obtain ⟨_, hperm, hsub, _⟩ := Enumeration.returned_facts hinv hret
    have heq : (fun l => anchorLines (listingAnchors NewDocument l)) =
        (fun l => ((listingAnchors NewDocument l).filterMap Anchor.href).map println) := by
      funext l
      rw [anchorLines, eachAnchor_eq_filterMap]
    refine ⟨heq ▸ hperm, ?_, ?_⟩
    · intro l hl
      have := hsub l hl
      rwa [anchorLines, eachAnchor_eq_filterMap] at this
    · rw [hperm.length_eq, length_flatMap_anchorLines]

/-- C9, on a run in which the links of two pages alternate: four lines are
printed, one of them for the empty `href`, none for the missing one. -/
theorem outSlugs_prints_every_href_witness :
    Enumeration.run exampleListings exampleEnumSchedule Enumeration.init
      = some exampleEnumFinal ∧
    eachAnchor listingDocument.listaAz =
      [ "ficha.aspx?Par=58001".toList, [], "ficha.aspx?Par=58002".toList ] ∧
    (∃ doc, exampleListings (sprintfChar alphaPageURL 'A') = .ok doc ∧
      listingAnchors exampleListings 'A' = doc.listaAz) ∧
    (exampleEnumFinal.fatal = none ∧
      ∃ sched' t, Enumeration.run exampleListings sched' exampleEnumFinal = some t ∧
        t.returned = true) ∧
    exampleEnumFinal.stdout.Perm (letters.flatMap (fun l =>
        ((listingAnchors exampleListings l).filterMap Anchor.href).map println)) ∧
      (∀ l ∈ letters,
        (((listingAnchors exampleListings l).filterMap Anchor.href).map println).Sublist
          exampleEnumFinal.stdout) ∧
      exampleEnumFinal.stdout.length =
        (letters.map (fun l =>
          (listingAnchors exampleListings l).countP (fun a => a.href.isSome))).sum :=
  ⟨by decide, by decide,
    (outSlugs_prints_every_href exampleListings
      (fun l _ => by unfold exampleListings; split_ifs <;> exact ⟨_, rfl⟩)).2.1 'A'
      (by decide),
    (outSlugs_prints_every_href exampleListings
      (fun l _ => by unfold exampleListings; split_ifs <;> exact ⟨_, rfl⟩)).2.2.1
      exampleEnumSchedule exampleEnumFinal (by decide),
    (outSlugs_prints_every_href exampleListings
      (fun l _ => by unfold exampleListings; split_ifs <;> exact ⟨_, rfl⟩)).2.2.2
      exampleEnumSchedule exampleEnumFinal (by decide) (by decide)⟩

end Refranero
